import Mathlib

/-!
Shallow embedding of the bionic entity-graph resolution and caching core.

The repository ships only the tutorial notebook
(src/docs/tutorials/ml_workflow.ipynb); the core implementation (Flow,
case-key derivation, multiplicity resolution, the two-tier cache, the
evaluator and the gather operator) is not under src/.  All definitions
below are therefore modelled from the specification (spec.md sections
2-7), as faithfully to its words as a shallow embedding allows.
-/

namespace Bionic

/-- Modelled from the spec: the values produced by entities and bound by
Assignments (the concrete value types are out of scope in the spec, so a
small closed universe of naturals, strings and ordered containers is
used; gather containers are ordered lists of values). -/
inductive Val where
  | nat : Nat → Val
  | str : String → Val
  | list : List Val → Val
deriving Repr

mutual

def Val.deq : (a b : Val) → Decidable (a = b)
  | .nat m, .nat n =>
    match Nat.decEq m n with
    | isTrue h => isTrue (by rw [h])
    | isFalse h => isFalse (fun hh => h (by cases hh; rfl))
  | .str s, .str t =>
    match String.decEq s t with
    | isTrue h => isTrue (by rw [h])
    | isFalse h => isFalse (fun hh => h (by cases hh; rfl))
  | .list xs, .list ys =>
    match Val.deqList xs ys with
    | isTrue h => isTrue (by rw [h])
    | isFalse h => isFalse (fun hh => h (by cases hh; rfl))
  | .nat _, .str _ => isFalse (fun hh => by cases hh)
  | .nat _, .list _ => isFalse (fun hh => by cases hh)
  | .str _, .nat _ => isFalse (fun hh => by cases hh)
  | .str _, .list _ => isFalse (fun hh => by cases hh)
  | .list _, .nat _ => isFalse (fun hh => by cases hh)
  | .list _, .str _ => isFalse (fun hh => by cases hh)

def Val.deqList : (a b : List Val) → Decidable (a = b)
  | [], [] => isTrue rfl
  | [], _ :: _ => isFalse (fun hh => by cases hh)
  | _ :: _, [] => isFalse (fun hh => by cases hh)
  | x :: xs, y :: ys =>
    match Val.deq x y, Val.deqList xs ys with
    | isTrue h1, isTrue h2 => isTrue (by rw [h1, h2])
    | isFalse h1, _ => isFalse (fun hh => h1 (by cases hh; rfl))
    | _, isFalse h2 => isFalse (fun hh => h2 (by cases hh; rfl))

end

instance : DecidableEq Val := Val.deq

/-- Modelled from the spec: a Case Key, the deterministic identity of one
Instance (spec section 3).  An Instance of an externally fixed entity is a
zero-dependency Instance whose key derives from a content hash of the
assigned value (spec section 4.3); a derived Instance's key is a hash over
the entity name, the producing-function version token and the ordered case
keys of the dependency Instances actually used.  The hash is modelled as
an injective constructor (a collision-free deterministic hash). -/
inductive CaseKey where
  | fixedKey : String → Val → CaseKey
  | derived : String → Nat → List CaseKey → CaseKey
deriving Repr

mutual

def CaseKey.deq : (a b : CaseKey) → Decidable (a = b)
  | .fixedKey n v, .fixedKey n' v' =>
    match String.decEq n n', Val.deq v v' with
    | isTrue h1, isTrue h2 => isTrue (by rw [h1, h2])
    | isFalse h1, _ => isFalse (fun hh => h1 (by cases hh; rfl))
    | _, isFalse h2 => isFalse (fun hh => h2 (by cases hh; rfl))
  | .derived n t ks, .derived n' t' ks' =>
    match String.decEq n n', Nat.decEq t t', CaseKey.deqList ks ks' with
    | isTrue h1, isTrue h2, isTrue h3 => isTrue (by rw [h1, h2, h3])
    | isFalse h1, _, _ => isFalse (fun hh => h1 (by cases hh; rfl))
    | _, isFalse h2, _ => isFalse (fun hh => h2 (by cases hh; rfl))
    | _, _, isFalse h3 => isFalse (fun hh => h3 (by cases hh; rfl))
  | .fixedKey _ _, .derived _ _ _ => isFalse (fun hh => by cases hh)
  | .derived _ _ _, .fixedKey _ _ => isFalse (fun hh => by cases hh)

def CaseKey.deqList : (a b : List CaseKey) → Decidable (a = b)
  | [], [] => isTrue rfl
  | [], _ :: _ => isFalse (fun hh => by cases hh)
  | _ :: _, [] => isFalse (fun hh => by cases hh)
  | x :: xs, y :: ys =>
    match CaseKey.deq x y, CaseKey.deqList xs ys with
    | isTrue h1, isTrue h2 => isTrue (by rw [h1, h2])
    | isFalse h1, _ => isFalse (fun hh => h1 (by cases hh; rfl))
    | _, isFalse h2 => isFalse (fun hh => h2 (by cases hh; rfl))

end

instance : DecidableEq CaseKey := CaseKey.deq

/-- Modelled from the spec: a GatherSpec (spec section 3): the upstream
dimension names to contract and the entity name supplying the per-variant
payload to collect into the combined container. -/
structure GatherSpec where
  over : List String
  also : String
deriving DecidableEq, Repr

/-- Modelled from the spec: the multiplicity role of an entity (spec
section 3): ordinary (full cartesian fan-out) or gather-target (declared
dimensions are contracted into a single collected container). -/
inductive Role where
  | ordinary : Role
  | gatherTarget : GatherSpec → Role

/-- Modelled from the spec: an Entity declaration (spec section 3): name,
ordered dependency names, a version token for the producing function, the
producing function itself (fallible), and the multiplicity role. -/
structure Entity where
  name : String
  deps : List String
  ver : Nat
  fn : List Val → Except String Val
  role : Role

/-- First-match association-list lookup. -/
def alookup {κ α : Type} [DecidableEq κ] : List (κ × α) → κ → Option α
  | [], _ => none
  | (k, v) :: rest, k' => if k = k' then some v else alookup rest k'

/-- Association-list insert; the new binding shadows any previous one. -/
def ainsert {κ α : Type} [DecidableEq κ] (l : List (κ × α)) (k : κ) (v : α) :
    List (κ × α) :=
  (k, v) :: l

/-- Look up every key in order; `none` when any key is absent. -/
def mapLookup {κ α : Type} [DecidableEq κ] (l : List (κ × α)) :
    List κ → Option (List α)
  | [] => some []
  | k :: ks =>
    match alookup l k, mapLookup l ks with
    | some v, some vs => some (v :: vs)
    | _, _ => none

/-- Modelled from the spec: a Flow (spec section 3), the immutable
snapshot: an Entity Registry (in registration order) plus a mapping from
entity name to an externally fixed Assignment. -/
structure Flow where
  reg : List Entity
  asn : List (String × List Val)

/-- Registry lookup by entity name (first match, in registration order). -/
def lookupReg (reg : List Entity) (n : String) : Option Entity :=
  reg.find? (fun e => e.name == n)

/-- Producing function of a registered entity. -/
def fnOf (reg : List Entity) (n : String) :
    Option (List Val → Except String Val) :=
  (lookupReg reg n).map (fun e => e.fn)

/-- Modelled from the spec: the error taxonomy visible through the Flow
interface (spec section 7): unknown entity, single-value access to a
multi-valued entity, a propagated producing-function failure (with the
originating entity identified), and an internal resolution error. -/
inductive GetError where
  | UnknownEntityError : String → GetError
  | MultipleValuesError : String → Nat → GetError
  | computeFailure : String → String → GetError
  | internalError : GetError
deriving DecidableEq, Repr

/-- Decidable equality of fallible results. -/
def exceptDecEq {ε α : Type} [DecidableEq ε] [DecidableEq α] :
    (a b : Except ε α) → Decidable (a = b)
  | .error e, .error e' =>
    match decEq e e' with
    | isTrue h => isTrue (by rw [h])
    | isFalse h => isFalse (fun hh => h (by cases hh; rfl))
  | .ok a, .ok b =>
    match decEq a b with
    | isTrue h => isTrue (by rw [h])
    | isFalse h => isFalse (fun hh => h (by cases hh; rfl))
  | .error _, .ok _ => isFalse (fun hh => by cases hh)
  | .ok _, .error _ => isFalse (fun hh => by cases hh)

instance {ε α : Type} [DecidableEq ε] [DecidableEq α] :
    DecidableEq (Except ε α) := exceptDecEq

/-- Modelled from the spec: construction-time registration errors (spec
section 4.1). -/
inductive RegisterError where
  | DuplicateEntityError : String → RegisterError
  | UnknownDependencyError : String → RegisterError
deriving DecidableEq, Repr

/-- Whether a gather-target's spec refers only to already registered
names and contracts only declared dependencies. -/
def okRole (e : Entity) (seen : List String) : Bool :=
  match e.role with
  | .ordinary => true
  | .gatherTarget gs =>
    seen.contains gs.also && gs.over.all (fun d => e.deps.contains d)

/-- Modelled from the spec: Entity Registry registration (spec section
4.1).  Dependencies must already be registered, so the dependency graph is
acyclic by construction (the incremental cycle check of spec section 4.1
can never fire in this presentation). -/
def register (reg : List Entity) (e : Entity) :
    Except RegisterError (List Entity) :=
  if reg.any (fun e0 => e0.name == e.name) then
    .error (.DuplicateEntityError e.name)
  else if e.deps.all (fun d => reg.any (fun e0 => e0.name == d))
      && okRole e (reg.map (fun e0 => e0.name)) then
    .ok (reg ++ [e])
  else .error (.UnknownDependencyError e.name)

/-- Registry well-formedness, accumulating the already seen names: each
name is fresh and all dependencies (and gather references) are already
registered.  This is the invariant `register` maintains. -/
def wfA : List Entity → List String → Bool
  | [], _ => true
  | e :: rest, seen =>
    !(seen.contains e.name) && e.deps.all (fun d => seen.contains d)
      && okRole e seen && wfA rest (e.name :: seen)

/-- A well-formed registry. -/
def wfReg (reg : List Entity) : Bool := wfA reg []

/-- Modelled from the spec: `setting` (spec section 4.2): returns a new
Flow whose assignment map differs only at the given name, failing with
`UnknownEntityError` when the name is absent from the registry; the
receiver is never mutated. -/
def Flow.setting (f : Flow) (n : String) (vs : List Val) :
    Except GetError Flow :=
  if (lookupReg f.reg n).isSome then
    .ok { reg := f.reg, asn := ainsert f.asn n vs }
  else .error (.UnknownEntityError n)

/-- Lexicographic cartesian product of a list of lists: the first list
varies slowest, matching the composed ordering of spec section 4.4. -/
def cartProd {α : Type} : List (List α) → List (List α)
  | [] => [[]]
  | l :: ls => l.flatMap (fun x => (cartProd ls).map (fun c => x :: c))

/-- Merge dimension coordinates of several upstream instances (first
occurrence of each dimension name wins). -/
def mergeDims (ls : List (List (String × Nat))) : List (String × Nat) :=
  ls.foldl
    (fun acc l => acc ++ l.filter (fun p => !(acc.any (fun q => q.1 == p.1))))
    []

/-- Whether an instance's dimension coordinates extend the given
(surviving) coordinates. -/
def dimsAgree (pd : List (String × Nat)) (coords : List (String × Nat)) :
    Bool :=
  coords.all (fun c => pd.contains c)

/-- How an Instance's producing arguments are assembled: an externally
fixed value, positional dependency values, or a gathered container. -/
inductive ArgSpec where
  | fixedArg : Val → ArgSpec
  | positional : List CaseKey → ArgSpec
  | gathered : List CaseKey → ArgSpec
deriving DecidableEq, Repr

/-- Modelled from the spec: an Instance (spec section 3): one concrete
materialization of an entity, identified by its Case Key, carrying its
dimension coordinates and its argument assembly recipe. -/
structure Inst where
  entity : String
  key : CaseKey
  dims : List (String × Nat)
  args : ArgSpec
deriving DecidableEq, Repr

/-- Modelled from the spec: the Multiplicity Resolver for one entity
(spec sections 4.3 and 4.4).  A fixed Assignment of size k yields k
zero-dependency Instances in Assignment order; an ordinary entity yields
one Instance per combination of its dependencies' Instances (full
cartesian fan-out, dependency registration order composed
lexicographically); a gather-target yields one Instance per combination
of its non-contracted dependencies' Instances, each collecting the
payload Instances whose coordinates agree, in their resolved order. -/
def instsFor (tbl : List (String × List Inst)) (asn : List (String × List Val))
    (e : Entity) : List Inst :=
  match alookup asn e.name with
  | some vs =>
    vs.enum.map (fun p =>
      { entity := e.name, key := .fixedKey e.name p.2,
        dims := [(e.name, p.1)], args := .fixedArg p.2 })
  | none =>
    match e.role with
    | .ordinary =>
      (cartProd (e.deps.map (fun d => (alookup tbl d).getD []))).map
        (fun combo =>
          { entity := e.name,
            key := .derived e.name e.ver (combo.map (fun t => t.key)),
            dims := mergeDims (combo.map (fun t => t.dims)),
            args := .positional (combo.map (fun t => t.key)) })
    | .gatherTarget gs =>
      let payload := (alookup tbl gs.also).getD []
      (cartProd ((e.deps.filter (fun d => !(gs.over.contains d))).map
          (fun d => (alookup tbl d).getD []))).map
        (fun combo =>
          let coords := mergeDims (combo.map (fun t => t.dims))
          let collected := payload.filter (fun p => dimsAgree p.dims coords)
          { entity := e.name,
            key := .derived e.name e.ver
              (combo.map (fun t => t.key) ++ collected.map (fun t => t.key)),
            dims := coords,
            args := .gathered (collected.map (fun t => t.key)) })

/-- Bottom-up construction of the resolved instance table, processing the
registry in registration order (dependencies always precede their
dependents in a well-formed registry). -/
def buildTableAux (asn : List (String × List Val)) :
    List Entity → List (String × List Inst) → List (String × List Inst)
  | [], tbl => tbl
  | e :: rest, tbl => buildTableAux asn rest (tbl ++ [(e.name, instsFor tbl asn e)])

/-- The resolved instance table of a registry under an assignment map. -/
def buildTable (reg : List Entity) (asn : List (String × List Val)) :
    List (String × List Inst) :=
  buildTableAux asn reg []

/-- Names a gather-target additionally needs resolved (its payload). -/
def gatherExtra (e : Entity) : List String :=
  match e.role with
  | .ordinary => []
  | .gatherTarget gs => [gs.also]

/-- Transitive dependency closure of the requested entity, walking the
registry backwards; only these entities are materialized by a `get`
(spec section 4.6, lazy resolution). -/
def neededAux : List Entity → List String → List String
  | [], acc => acc
  | e :: rest, acc =>
    if acc.contains e.name then neededAux rest (acc ++ e.deps ++ gatherExtra e)
    else neededAux rest acc

/-- The entity names needed to resolve the target. -/
def neededOf (reg : List Entity) (target : String) : List String :=
  neededAux reg.reverse [target]

/-- The resolved Instances of one entity under a Flow. -/
def instsOf (f : Flow) (n : String) : List Inst :=
  (alookup (buildTable f.reg f.asn) n).getD []

/-- Modelled from the spec: `mult(E)`, the number of Instances of an
entity under a Flow (spec section 4.4). -/
def multOf (f : Flow) (n : String) : Nat := (instsOf f n).length

/-- The ordered case keys of an entity's Instances under a Flow. -/
def instKeys (f : Flow) (n : String) : List CaseKey :=
  (instsOf f n).map (fun t => t.key)

/-- The Instances a `get` of the target materializes, in dependency
order (registry order restricted to the needed entities). -/
def tasksOf (f : Flow) (target : String) : List Inst :=
  let tbl := buildTable f.reg f.asn
  let nd := neededOf f.reg target
  tbl.flatMap (fun p => if nd.contains p.1 then p.2 else [])

/-- Modelled from the spec: the two-tier Cache Store (spec section 4.5):
a process-local memory tier and a persistent tier, both addressed by Case
Key. -/
structure Cache where
  mem : List (CaseKey × Val)
  disk : List (CaseKey × Val)
deriving DecidableEq, Repr

/-- The empty cache (no memory entries, empty persistent store). -/
def emptyCache : Cache := { mem := [], disk := [] }

/-- Modelled from the spec: Cache Store `get` (spec section 4.5): the
memory tier is consulted first, then the persistent tier. -/
def lookupCache (c : Cache) (k : CaseKey) : Option Val :=
  match alookup c.mem k with
  | some v => some v
  | none => alookup c.disk k

/-- Evaluator state: the Cache Store, the values of the Instances
resolved so far in this evaluation, and a per-entity invocation counter
for the producing functions. -/
structure EState where
  cache : Cache
  env : List (CaseKey × Val)
  calls : List (String × Nat)
deriving DecidableEq, Repr

/-- Invocations of an entity's producing function recorded so far. -/
def callsOf (l : List (String × Nat)) (n : String) : Nat :=
  (alookup l n).getD 0

/-- Record one more invocation of an entity's producing function. -/
def bump (l : List (String × Nat)) (n : String) : List (String × Nat) :=
  ainsert l n (callsOf l n + 1)

/-- Assemble the arguments of an Instance from the evaluation
environment: a gather-target receives the collected values as one ordered
container, its effective sole argument (spec section 4.7). -/
def instArgs (s : EState) (t : Inst) : Option (List Val) :=
  match t.args with
  | .fixedArg _ => none
  | .positional ks => mapLookup s.env ks
  | .gathered ks => (mapLookup s.env ks).map (fun vs => [Val.list vs])

/-- Modelled from the spec: the cache-miss path of evaluating one derived
Instance (spec sections 4.5 and 4.6): assemble the arguments, invoke the
producing function, and on success write the result to both cache tiers
and record the invocation; a failed computation is never cached and
aborts the evaluation with the error. -/
def execMiss (reg : List Entity) (s : EState) (t : Inst) :
    EState × Option GetError :=
  match instArgs s t with
  | none => (s, some .internalError)
  | some args =>
    match fnOf reg t.entity with
    | none => (s, some .internalError)
    | some fn =>
      match fn args with
      | .error msg => (s, some (.computeFailure t.entity msg))
      | .ok v =>
        ({ cache := { mem := ainsert s.cache.mem t.key v,
                      disk := ainsert s.cache.disk t.key v },
           env := ainsert s.env t.key v,
           calls := bump s.calls t.entity }, none)

/-- Modelled from the spec: evaluation of one derived Instance through
the Cache Store (spec section 4.5): the memory tier is consulted first,
then the persistent tier (promoting a persistent hit into memory), and
only on a full miss is the producing function invoked. -/
def execDerived (reg : List Entity) (s : EState) (t : Inst) :
    EState × Option GetError :=
  match alookup s.cache.mem t.key with
  | some v => ({ s with env := ainsert s.env t.key v }, none)
  | none =>
    match alookup s.cache.disk t.key with
    | some v =>
      ({ s with cache := { s.cache with mem := ainsert s.cache.mem t.key v },
                env := ainsert s.env t.key v }, none)
    | none => execMiss reg s t

/-- Modelled from the spec: evaluation of one Instance (spec sections 4.5
and 4.6): a fixed Instance simply contributes its assigned value; a
derived Instance goes through the Cache Store. -/
def execInst (reg : List Entity) (s : EState) (t : Inst) :
    EState × Option GetError :=
  match t.args with
  | .fixedArg v => ({ s with env := ainsert s.env t.key v }, none)
  | .positional _ => execDerived reg s t
  | .gathered _ => execDerived reg s t

/-- Evaluate a list of Instances in dependency order, stopping at the
first failure (which is reported, not swallowed). -/
def execInsts (reg : List Entity) (s : EState) :
    List Inst → EState × Option GetError
  | [] => (s, none)
  | t :: ts =>
    match execInst reg s t with
    | (s1, none) => execInsts reg s1 ts
    | (s1, some e) => (s1, some e)

/-- Modelled from the spec: the container selector of `get` (spec section
4.6); the model offers the ordered-sequence container. -/
inductive Container where
  | list : Container
deriving DecidableEq, Repr

/-- Modelled from the spec: the Evaluator's `get(entityName, container?)`
(spec section 4.6).  It resolves the needed Instances in dependency
order through the Cache Store, then returns the single value when
`mult = 1`, the ordered container of Instance values when a container
selector is supplied, and `MultipleValuesError` (naming the entity and
its multiplicity) when `mult > 1` and no container is given.  It returns
the result together with the final Cache Store and the invocation
counters. -/
def Flow.getRun (f : Flow) (c : Cache) (n : String) (cont : Option Container) :
    Except GetError Val × Cache × List (String × Nat) :=
  match lookupReg f.reg n with
  | none => (.error (.UnknownEntityError n), c, [])
  | some _ =>
    match execInsts f.reg { cache := c, env := [], calls := [] } (tasksOf f n) with
    | (s, some e) => (.error e, s.cache, s.calls)
    | (s, none) =>
      match cont with
      | some .list =>
        match mapLookup s.env (instKeys f n) with
        | some vs => (.ok (.list vs), s.cache, s.calls)
        | none => (.error .internalError, s.cache, s.calls)
      | none =>
        match instKeys f n with
        | [] => (.error .internalError, s.cache, s.calls)
        | [k] =>
          match alookup s.env k with
          | some v => (.ok v, s.cache, s.calls)
          | none => (.error .internalError, s.cache, s.calls)
        | _ :: _ :: _ => (.error (.MultipleValuesError n (multOf f n)), s.cache, s.calls)

/-- The memory tier never holds an entry absent from the persistent tier
(true of the empty cache and preserved by evaluation). -/
def CacheWF (c : Cache) : Prop :=
  ∀ k v, alookup c.mem k = some v → alookup c.disk k = some v

/-- Structural well-formedness of a resolved Instance: its key embeds its
own entity name, and a fixed Instance's key embeds its value. -/
def InstWF (t : Inst) : Prop :=
  match t.args with
  | .fixedArg v => t.key = .fixedKey t.entity v
  | .positional _ => ∃ ver ks, t.key = .derived t.entity ver ks
  | .gathered _ => ∃ ver ks, t.key = .derived t.entity ver ks

/-- The reference environment and cache justify re-evaluating an Instance
without invoking its producing function: a fixed Instance's reference
value is its assigned value, and a derived Instance's key hits the Cache
Store with its reference value. -/
def RefOK (e1 : List (CaseKey × Val)) (c : Cache) (t : Inst) : Prop :=
  match t.args with
  | .fixedArg v => alookup e1 t.key = some v
  | .positional _ => ∃ w, lookupCache c t.key = some w ∧ alookup e1 t.key = some w
  | .gathered _ => ∃ w, lookupCache c t.key = some w ∧ alookup e1 t.key = some w

/-- After evaluation, a fixed Instance's value is in the environment, and
a derived Instance's value is in the environment and in both cache
tiers, all agreeing. -/
def PostOK (s : EState) (t : Inst) : Prop :=
  match t.args with
  | .fixedArg v => alookup s.env t.key = some v
  | .positional _ => ∃ w, alookup s.env t.key = some w ∧
      alookup s.cache.mem t.key = some w ∧ alookup s.cache.disk t.key = some w
  | .gathered _ => ∃ w, alookup s.env t.key = some w ∧
      alookup s.cache.mem t.key = some w ∧ alookup s.cache.disk t.key = some w

/-- Whether an Instance is an externally fixed one. -/
def Inst.fixedB (t : Inst) : Bool :=
  match t.args with
  | .fixedArg _ => true
  | .positional _ => false
  | .gathered _ => false

/-! ### Concrete scenario flows (spec section 8) -/

/-- A successful constant result. -/
def okv (v : Val) : Except String Val := .ok v

/-- Read a value as a natural number. -/
def natOf : Val → Nat
  | .nat n => n
  | .str _ => 0
  | .list _ => 0

/-- First positional argument. -/
def arg0 (args : List Val) : Val := args.headD (.nat 0)

/-- Second positional argument. -/
def arg1 (args : List Val) : Val := (args.drop 1).headD (.nat 0)

/-- The keys an argument recipe reads. -/
def ArgSpec.keys : ArgSpec → List CaseKey
  | .fixedArg _ => []
  | .positional ks => ks
  | .gathered ks => ks

/-- A source entity, always externally fixed in the scenarios. -/
def entSrc (n : String) : Entity :=
  { name := n, deps := [], ver := 1, fn := fun _ => okv (.nat 0), role := .ordinary }

/-- Scenario A's derived entity: b = a + 1. -/
def entB : Entity :=
  { name := "b", deps := ["a"], ver := 1,
    fn := fun args => okv (.nat (natOf (arg0 args) + 1)), role := .ordinary }

/-- Scenario B's derived entity: c = a * 10. -/
def entC10 : Entity :=
  { name := "c", deps := ["a"], ver := 1,
    fn := fun args => okv (.nat (natOf (arg0 args) * 10)), role := .ordinary }

/-- Scenario C's derived entity m, depending on a and d. -/
def entM : Entity :=
  { name := "m", deps := ["a", "d"], ver := 1,
    fn := fun args => okv (.nat (natOf (arg0 args) * 100 + natOf (arg1 args))),
    role := .ordinary }

/-- Scenario D's gather-target g, contracting dimension a and collecting
m's instances. -/
def entG : Entity :=
  { name := "g", deps := ["a", "d"], ver := 1,
    fn := fun args => okv (.list args),
    role := .gatherTarget { over := ["a"], also := "m" } }

/-- An entity whose producing function always fails. -/
def entBad : Entity :=
  { name := "bad", deps := ["a"], ver := 1,
    fn := fun _ => .error "boom", role := .ordinary }

/-- Scenario A registry: a, b = a + 1. -/
def regAB : List Entity := [entSrc "a", entB]

/-- Scenario A flow: a fixed to 1. -/
def flowAB : Flow := { reg := regAB, asn := [("a", [Val.nat 1])] }

/-- An independently built Flow whose assignment map is extensionally the
same as flowAB's (the shadowed second binding is never observable). -/
def flowAB2 : Flow :=
  { reg := regAB, asn := [("a", [Val.nat 1]), ("a", [Val.nat 99])] }

/-- Scenario B registry: a, c = a * 10. -/
def regAC : List Entity := [entSrc "a", entC10]

/-- Scenario B flow: a fixed to [1, 2, 3]. -/
def flowAC : Flow :=
  { reg := regAC, asn := [("a", [Val.nat 1, Val.nat 2, Val.nat 3])] }

/-- Scenario C/D registry: a, d, m, g. -/
def regMG : List Entity := [entSrc "a", entSrc "d", entM, entG]

/-- Scenario C/D flow: a fixed to 3 values, d fixed to 2 values. -/
def flowMG : Flow :=
  { reg := regMG,
    asn := [("a", [Val.nat 1, Val.nat 2, Val.nat 3]),
            ("d", [Val.nat 7, Val.nat 8])] }

/-- Registry with a failing producing function. -/
def regBad : List Entity := [entSrc "a", entBad]

/-- Flow over the failing registry. -/
def flowBad : Flow := { reg := regBad, asn := [("a", [Val.nat 1])] }

/-- The resolved Instance of the fixed source a = 1 (for the failing
scenario's task list). -/
def instSrcA : Inst :=
  { entity := "a", key := .fixedKey "a" (.nat 1),
    dims := [("a", 0)], args := .fixedArg (.nat 1) }

/-- The resolved Instance of the failing entity. -/
def instBad : Inst :=
  { entity := "bad", key := .derived "bad" 1 [.fixedKey "a" (.nat 1)],
    dims := [("a", 0)], args := .positional [.fixedKey "a" (.nat 1)] }

/-- The names an entity's resolution mentions: its declared dependencies
plus, for a gather-target, the collected payload entity. -/
def mentionsOf (e : Entity) : List String := e.deps ++ gatherExtra e

/-- Registry with two independent roots: b depends on a only, and x is an
unrelated fixed entity (for the cross-Flow partial-overlap scenario). -/
def regABX : List Entity := [entSrc "a", entSrc "x", entB]

/-- First cross-Flow scenario flow: a = 1, x = 5. -/
def flowX1 : Flow :=
  { reg := regABX, asn := [("a", [Val.nat 1]), ("x", [Val.nat 5])] }

/-- Second, independently built flow: agrees with flowX1 on b's
dependency closure (a) but differs at the unrelated entity x. -/
def flowX2 : Flow :=
  { reg := regABX, asn := [("a", [Val.nat 1]), ("x", [Val.nat 6])] }

/-! ### Association-list lemmas -/

theorem alookup_append {κ α : Type} [DecidableEq κ] (l1 l2 : List (κ × α)) (k : κ) :
    alookup (l1 ++ l2) k =
      match alookup l1 k with
      | some v => some v
      | none => alookup l2 k := by
  induction l1 with
  | nil => simp [alookup]
  | cons p rest ih =>
    obtain ⟨k1, v1⟩ := p
    by_cases h : k1 = k
    · simp [alookup, h]
    · simp [alookup, h, ih]

theorem alookup_append_left {κ α : Type} [DecidableEq κ] {l1 : List (κ × α)}
    (l2 : List (κ × α)) {k : κ} (h : (alookup l1 k).isSome) :
    alookup (l1 ++ l2) k = alookup l1 k := by
  rw [alookup_append]
  cases hv : alookup l1 k with
  | some v => rfl
  | none => rw [hv] at h; simp at h

theorem alookup_append_right {κ α : Type} [DecidableEq κ] {l1 : List (κ × α)}
    (l2 : List (κ × α)) {k : κ} (h : alookup l1 k = none) :
    alookup (l1 ++ l2) k = alookup l2 k := by
  rw [alookup_append, h]

theorem alookup_none_iff {κ α : Type} [DecidableEq κ] (l : List (κ × α)) (k : κ) :
    alookup l k = none ↔ ∀ p ∈ l, p.1 ≠ k := by
  induction l with
  | nil => simp [alookup]
  | cons p rest ih =>
    obtain ⟨k1, v1⟩ := p
    by_cases h : k1 = k
    · simp [alookup, h]
    · simp [alookup, h, ih]

theorem alookup_isSome_of_mem {κ α : Type} [DecidableEq κ] {l : List (κ × α)}
    {p : κ × α} (h : p ∈ l) : (alookup l p.1).isSome := by
  cases hv : alookup l p.1 with
  | some v => rfl
  | none => exact absurd rfl ((alookup_none_iff l p.1).mp hv p h)

theorem mapLookup_congr {κ α : Type} [DecidableEq κ] {l1 l2 : List (κ × α)}
    {ks : List κ} (h : ∀ k ∈ ks, alookup l1 k = alookup l2 k) :
    mapLookup l1 ks = mapLookup l2 ks := by
  induction ks with
  | nil => rfl
  | cons k ks ih =>
    have hk : alookup l1 k = alookup l2 k := h k (by simp)
    have hrest : mapLookup l1 ks = mapLookup l2 ks :=
      ih (fun k' hk' => h k' (by simp [hk']))
    simp [mapLookup, hk, hrest]

theorem mapLookup_isSome {κ α : Type} [DecidableEq κ] {l : List (κ × α)}
    {ks : List κ} (h : ∀ k ∈ ks, (alookup l k).isSome) :
    ∃ vs, mapLookup l ks = some vs := by
  induction ks with
  | nil => exact ⟨[], rfl⟩
  | cons k ks ih =>
    obtain ⟨v, hv⟩ := Option.isSome_iff_exists.mp (h k (by simp))
    obtain ⟨vs, hvs⟩ := ih (fun k' hk' => h k' (by simp [hk']))
    exact ⟨v :: vs, by simp [mapLookup, hv, hvs]⟩

theorem alookup_isSome_iff_mem_names {κ α : Type} [DecidableEq κ]
    (l : List (κ × α)) (k : κ) :
    (alookup l k).isSome ↔ k ∈ l.map Prod.fst := by
  induction l with
  | nil => simp [alookup]
  | cons p rest ih =>
    obtain ⟨k1, v1⟩ := p
    by_cases h : k1 = k
    · simp [alookup, h]
    · simp [alookup, h, ih, Ne.symm h]

/-! ### Instance-table construction lemmas -/

theorem buildTableAux_append (asn : List (String × List Val)) :
    ∀ (l1 l2 : List Entity) (tbl : List (String × List Inst)),
    buildTableAux asn (l1 ++ l2) tbl = buildTableAux asn l2 (buildTableAux asn l1 tbl) := by
  intro l1
  induction l1 with
  | nil => intro l2 tbl; rfl
  | cons e rest ih => intro l2 tbl; simp [buildTableAux, ih]

theorem buildTableAux_names (asn : List (String × List Val)) :
    ∀ (rest : List Entity) (tbl : List (String × List Inst)),
    (buildTableAux asn rest tbl).map Prod.fst
      = tbl.map Prod.fst ++ rest.map Entity.name := by
  intro rest
  induction rest with
  | nil => intro tbl; simp [buildTableAux]
  | cons e rest ih => intro tbl; simp [buildTableAux, ih]

theorem alookup_buildTableAux (asn : List (String × List Val)) :
    ∀ (rest : List Entity) (tbl : List (String × List Inst)) (n : String),
    (alookup tbl n).isSome →
    alookup (buildTableAux asn rest tbl) n = alookup tbl n := by
  intro rest
  induction rest with
  | nil => intro tbl n _; rfl
  | cons e rest ih =>
    intro tbl n h
    have hstep : alookup (tbl ++ [(e.name, instsFor tbl asn e)]) n = alookup tbl n :=
      alookup_append_left _ h
    calc alookup (buildTableAux asn (e :: rest) tbl) n
        = alookup (buildTableAux asn rest (tbl ++ [(e.name, instsFor tbl asn e)])) n := rfl
      _ = alookup (tbl ++ [(e.name, instsFor tbl asn e)]) n := ih _ n (by rw [hstep]; exact h)
      _ = alookup tbl n := hstep

theorem wfA_append : ∀ (l1 l2 : List Entity) (seen : List String),
    wfA (l1 ++ l2) seen
      = (wfA l1 seen && wfA l2 ((l1.map Entity.name).reverse ++ seen)) := by
  intro l1
  induction l1 with
  | nil => intro l2 seen; simp [wfA]
  | cons e rest ih =>
    intro l2 seen
    simp only [List.cons_append, wfA]
    rw [List.append_eq, ih]
    simp [Bool.and_assoc]

theorem find?_split {α : Type} (p : α → Bool) :
    ∀ (l : List α) (a : α), l.find? p = some a →
    ∃ l1 l2, l = l1 ++ a :: l2 ∧ (∀ x ∈ l1, p x = false) ∧ p a = true := by
  intro l
  induction l with
  | nil => intro a h; simp [List.find?] at h
  | cons x rest ih =>
    intro a h
    by_cases hx : p x = true
    · rw [List.find?_cons_of_pos _ hx] at h
      cases h
      exact ⟨[], rest, by simp, by simp, hx⟩
    · rw [List.find?_cons_of_neg _ hx] at h
      obtain ⟨l1, l2, hl, hp, hpa⟩ := ih a h
      refine ⟨x :: l1, l2, by simp [hl], ?_, hpa⟩
      intro y hy
      rcases List.mem_cons.mp hy with hy | hy
      · subst hy; simpa using hx
      · exact hp y hy

/-- The resolved table's entry of a registered entity E is computed by
`instsFor` from the table of the registry prefix before E, and that
prefix table agrees with the full table on every dependency of E. -/
theorem table_entry {reg : List Entity} {E : String} {e : Entity}
    (asn : List (String × List Val))
    (hwf : wfReg reg = true) (hreg : lookupReg reg E = some e) :
    ∃ tbl0,
      alookup (buildTable reg asn) E = some (instsFor tbl0 asn e) ∧
      ∀ d ∈ e.deps ++ gatherExtra e, (alookup tbl0 d).isSome ∧
        alookup (buildTable reg asn) d = alookup tbl0 d := by
  obtain ⟨pre, post, hsplit, _, hpa⟩ := find?_split _ reg e hreg
  have hE : e.name = E := by simpa using hpa
  subst hsplit
  have hwf2 : wfA (e :: post) ((pre.map Entity.name).reverse ++ []) = true := by
    rw [wfReg, wfA_append] at hwf
    simp only [Bool.and_eq_true] at hwf
    exact hwf.2
  rw [List.append_nil] at hwf2
  rw [wfA] at hwf2
  simp only [Bool.and_eq_true] at hwf2
  obtain ⟨⟨⟨hfresh0, hdeps0⟩, hrole0⟩, _⟩ := hwf2
  have hfresh : e.name ∉ pre.map Entity.name := by
    simp only [Bool.not_eq_true'] at hfresh0
    intro hmem
    have : e.name ∈ (pre.map Entity.name).reverse := by simpa using hmem
    have hcon : (pre.map Entity.name).reverse.contains e.name = true := by
      simpa using this
    rw [hcon] at hfresh0
    cases hfresh0
  have hdeps : ∀ d ∈ e.deps ++ gatherExtra e, d ∈ pre.map Entity.name := by
    intro d hd
    rcases List.mem_append.mp hd with hd1 | hd1
    · have hall := List.all_eq_true.mp hdeps0 d hd1
      simpa using hall
    · cases hrolee : e.role with
      | ordinary => rw [gatherExtra, hrolee] at hd1; cases hd1
      | gatherTarget gs =>
        rw [gatherExtra, hrolee] at hd1
        have hdgs : d = gs.also := List.mem_singleton.mp hd1
        subst hdgs
        rw [okRole, hrolee] at hrole0
        simp only [Bool.and_eq_true] at hrole0
        simpa using hrole0.1
  refine ⟨buildTableAux asn pre [], ?_, ?_⟩
  · have hnames : (buildTableAux asn pre []).map Prod.fst = pre.map Entity.name := by
      simpa using buildTableAux_names asn pre []
    have hnone : alookup (buildTableAux asn pre []) E = none := by
      rw [alookup_none_iff]
      intro p hp
      have hmem : p.1 ∈ pre.map Entity.name := by
        rw [← hnames]; exact List.mem_map_of_mem Prod.fst hp
      intro hcon
      apply hfresh
      rw [hcon] at hmem
      rw [hE]
      exact hmem
    have hfull : buildTable (pre ++ e :: post) asn
        = buildTableAux asn post (buildTableAux asn pre [] ++ [(e.name, instsFor (buildTableAux asn pre []) asn e)]) := by
      rw [buildTable, buildTableAux_append]
      rfl
    rw [hfull]
    have hmid : alookup (buildTableAux asn pre [] ++ [(e.name, instsFor (buildTableAux asn pre []) asn e)]) E
        = some (instsFor (buildTableAux asn pre []) asn e) := by
      rw [alookup_append_right _ hnone, hE]
      simp [alookup]
    rw [alookup_buildTableAux asn post _ E (by rw [hmid]; rfl), hmid]
  · intro d hd
    have hnames : (buildTableAux asn pre []).map Prod.fst = pre.map Entity.name := by
      simpa using buildTableAux_names asn pre []
    have hsome : (alookup (buildTableAux asn pre []) d).isSome := by
      rw [alookup_isSome_iff_mem_names, hnames]
      exact hdeps d hd
    refine ⟨hsome, ?_⟩
    have hfull : buildTable (pre ++ e :: post) asn
        = buildTableAux asn post (buildTableAux asn pre [] ++ [(e.name, instsFor (buildTableAux asn pre []) asn e)]) := by
      rw [buildTable, buildTableAux_append]
      rfl
    rw [hfull]
    have hmid : alookup (buildTableAux asn pre [] ++ [(e.name, instsFor (buildTableAux asn pre []) asn e)]) d
        = alookup (buildTableAux asn pre []) d := alookup_append_left _ hsome
    rw [alookup_buildTableAux asn post _ d (by rw [hmid]; exact hsome), hmid]

theorem length_cartProd {α : Type} : ∀ (ls : List (List α)),
    (cartProd ls).length = (ls.map List.length).prod := by
  intro ls
  induction ls with
  | nil => rfl
  | cons l ls ih =>
    have haux : ∀ xs : List α,
        (xs.flatMap (fun x => (cartProd ls).map (fun c => x :: c))).length
          = xs.length * (cartProd ls).length := by
      intro xs
      induction xs with
      | nil => simp
      | cons x xs ihx =>
        simp only [List.flatMap_cons, List.length_append, List.length_map,
          List.length_cons, ihx]
        ring
    simp only [cartProd, List.map_cons, List.prod_cons, haux, ih]

theorem alookup_ainsert {κ α : Type} [DecidableEq κ] (l : List (κ × α))
    (k : κ) (v : α) (k' : κ) :
    alookup (ainsert l k v) k' = if k = k' then some v else alookup l k' := rfl

theorem alookup_mem_pair {κ α : Type} [DecidableEq κ] :
    ∀ {l : List (κ × α)} {k : κ} {v : α}, alookup l k = some v → (k, v) ∈ l := by
  intro l
  induction l with
  | nil => intro k v h; simp [alookup] at h
  | cons p rest ih =>
    intro k v h
    obtain ⟨k1, v1⟩ := p
    by_cases hk : k1 = k
    · subst hk
      simp [alookup] at h
      subst h
      simp
    · simp [alookup, hk] at h
      exact List.mem_cons_of_mem _ (ih h)

/-! ### Resolution depends only on the assignment map (extensionally) -/

theorem instsFor_congr {a1 a2 : List (String × List Val)}
    (h : ∀ n, alookup a1 n = alookup a2 n)
    (tbl : List (String × List Inst)) (e : Entity) :
    instsFor tbl a1 e = instsFor tbl a2 e := by
  unfold instsFor
  rw [h e.name]

theorem buildTableAux_congr {a1 a2 : List (String × List Val)}
    (h : ∀ n, alookup a1 n = alookup a2 n) :
    ∀ (rest : List Entity) (tbl : List (String × List Inst)),
    buildTableAux a1 rest tbl = buildTableAux a2 rest tbl := by
  intro rest
  induction rest with
  | nil => intro tbl; rfl
  | cons e rest ih =>
    intro tbl
    show buildTableAux a1 rest _ = buildTableAux a2 rest _
    rw [instsFor_congr h tbl e, ih]

theorem buildTable_congr {a1 a2 : List (String × List Val)}
    (h : ∀ n, alookup a1 n = alookup a2 n) (reg : List Entity) :
    buildTable reg a1 = buildTable reg a2 :=
  buildTableAux_congr h reg []

theorem tasksOf_congr {reg : List Entity} {a1 a2 : List (String × List Val)}
    (h : ∀ n, alookup a1 n = alookup a2 n) (target : String) :
    tasksOf { reg := reg, asn := a1 } target = tasksOf { reg := reg, asn := a2 } target := by
  unfold tasksOf
  rw [buildTable_congr h reg]

theorem instsOf_congr {reg : List Entity} {a1 a2 : List (String × List Val)}
    (h : ∀ n, alookup a1 n = alookup a2 n) (n : String) :
    instsOf { reg := reg, asn := a1 } n = instsOf { reg := reg, asn := a2 } n := by
  unfold instsOf
  rw [buildTable_congr h reg]

theorem multOf_congr {reg : List Entity} {a1 a2 : List (String × List Val)}
    (h : ∀ n, alookup a1 n = alookup a2 n) (n : String) :
    multOf { reg := reg, asn := a1 } n = multOf { reg := reg, asn := a2 } n := by
  unfold multOf
  rw [instsOf_congr h n]

theorem instKeys_congr {reg : List Entity} {a1 a2 : List (String × List Val)}
    (h : ∀ n, alookup a1 n = alookup a2 n) (n : String) :
    instKeys { reg := reg, asn := a1 } n = instKeys { reg := reg, asn := a2 } n := by
  unfold instKeys
  rw [instsOf_congr h n]

theorem getRun_congr {reg : List Entity} {a1 a2 : List (String × List Val)}
    (h : ∀ n, alookup a1 n = alookup a2 n) (c : Cache) (n : String)
    (cont : Option Container) :
    Flow.getRun { reg := reg, asn := a1 } c n cont
      = Flow.getRun { reg := reg, asn := a2 } c n cont := by
  unfold Flow.getRun
  simp only [tasksOf_congr h n, instKeys_congr h n, multOf_congr h n]

/-! ### Basic evaluation lemmas -/

theorem execInsts_cons_ok {reg : List Entity} {s s1 : EState} {t : Inst}
    {ts : List Inst} (h : execInst reg s t = (s1, none)) :
    execInsts reg s (t :: ts) = execInsts reg s1 ts := by
  simp [execInsts, h]

theorem execInsts_cons_err {reg : List Entity} {s s1 : EState} {t : Inst}
    {ts : List Inst} {e : GetError} (h : execInst reg s t = (s1, some e)) :
    execInsts reg s (t :: ts) = (s1, some e) := by
  simp [execInsts, h]

theorem execInsts_append_ok {reg : List Entity} :
    ∀ {l1 : List Inst} {s s1 : EState} (l2 : List Inst),
    execInsts reg s l1 = (s1, none) →
    execInsts reg s (l1 ++ l2) = execInsts reg s1 l2 := by
  intro l1
  induction l1 with
  | nil =>
    intro s s1 l2 h
    simp [execInsts] at h
    simp [h]
  | cons t ts ih =>
    intro s s1 l2 h
    cases hstep : execInst reg s t with
    | mk s2 r =>
      cases r with
      | none =>
        rw [execInsts_cons_ok hstep] at h
        rw [List.cons_append, execInsts_cons_ok hstep]
        exact ih l2 h
      | some e =>
        rw [execInsts_cons_err hstep] at h
        cases h

theorem execInsts_append_err {reg : List Entity} :
    ∀ {l1 : List Inst} {s s1 : EState} {e : GetError} (l2 : List Inst),
    execInsts reg s l1 = (s1, some e) →
    execInsts reg s (l1 ++ l2) = (s1, some e) := by
  intro l1
  induction l1 with
  | nil =>
    intro s s1 e l2 h
    simp [execInsts] at h
  | cons t ts ih =>
    intro s s1 e l2 h
    cases hstep : execInst reg s t with
    | mk s2 r =>
      cases r with
      | none =>
        rw [execInsts_cons_ok hstep] at h
        rw [List.cons_append, execInsts_cons_ok hstep]
        exact ih l2 h
      | some e2 =>
        rw [execInsts_cons_err hstep] at h
        rw [List.cons_append, execInsts_cons_err hstep]
        exact h

theorem callsOf_bump_self (l : List (String × Nat)) (n : String) :
    callsOf (bump l n) n = callsOf l n + 1 := by
  simp [bump, callsOf, alookup_ainsert]

theorem callsOf_bump_other {n m : String} (l : List (String × Nat)) (h : n ≠ m) :
    callsOf (bump l n) m = callsOf l m := by
  simp [bump, callsOf, alookup_ainsert, h]

/-! ### Warm re-evaluation: a cache that already holds every derived
Instance reproduces the same values with zero producing-function
invocations -/

theorem lookupCache_mem_insert (c : Cache) (k : CaseKey) (w : Val) (k' : CaseKey) :
    lookupCache { c with mem := ainsert c.mem k w } k'
      = if k = k' then some w else lookupCache c k' := by
  by_cases h : k = k' <;> simp [lookupCache, alookup_ainsert, h]

theorem execInst_warm_step {reg : List Entity} {e1 : List (CaseKey × Val)}
    {s : EState} {t : Inst} (h : RefOK e1 s.cache t) :
    ∃ w, alookup e1 t.key = some w ∧
      (execInst reg s t).2 = none ∧
      (execInst reg s t).1.calls = s.calls ∧
      (execInst reg s t).1.cache.disk = s.cache.disk ∧
      (execInst reg s t).1.env = ainsert s.env t.key w ∧
      (∀ t' : Inst, RefOK e1 s.cache t' → RefOK e1 (execInst reg s t).1.cache t') := by
  cases hargs : t.args with
  | fixedArg v =>
    simp only [RefOK, hargs] at h
    refine ⟨v, h, ?_⟩
    simp [execInst, hargs]
  | positional ks =>
    simp only [RefOK, hargs] at h
    obtain ⟨w, hc, he⟩ := h
    cases hm : alookup s.cache.mem t.key with
    | some v0 =>
      have hv0 : v0 = w := by
        simp only [lookupCache, hm] at hc
        exact Option.some.inj hc
      subst hv0
      refine ⟨v0, he, ?_⟩
      simp [execInst, hargs, execDerived, hm]
    | none =>
      have hd : alookup s.cache.disk t.key = some w := by
        simp only [lookupCache, hm] at hc
        exact hc
      have hrun : execInst reg s t =
          ({ s with cache := { s.cache with mem := ainsert s.cache.mem t.key w },
                    env := ainsert s.env t.key w }, none) := by
        simp [execInst, hargs, execDerived, hm, hd]
      refine ⟨w, he, by simp [hrun], by simp [hrun], by simp [hrun], by simp [hrun], ?_⟩
      intro t' h'
      rw [hrun]
      cases hargs' : t'.args with
      | fixedArg v' => simp only [RefOK, hargs'] at h' ⊢; exact h'
      | positional ks' =>
        simp only [RefOK, hargs'] at h' ⊢
        obtain ⟨w', hc', he'⟩ := h'
        by_cases hk : t.key = t'.key
        · have hww : w' = w := by
            rw [← hk] at hc'
            simp only [lookupCache, hm, hd] at hc'
            exact (Option.some.inj hc').symm
          subst hww
          exact ⟨w', by simp [lookupCache_mem_insert, hk], he'⟩
        · exact ⟨w', by simp [lookupCache_mem_insert, hk, hc'], he'⟩
      | gathered ks' =>
        simp only [RefOK, hargs'] at h' ⊢
        obtain ⟨w', hc', he'⟩ := h'
        by_cases hk : t.key = t'.key
        · have hww : w' = w := by
            rw [← hk] at hc'
            simp only [lookupCache, hm, hd] at hc'
            exact (Option.some.inj hc').symm
          subst hww
          exact ⟨w', by simp [lookupCache_mem_insert, hk], he'⟩
        · exact ⟨w', by simp [lookupCache_mem_insert, hk, hc'], he'⟩
  | gathered ks =>
    simp only [RefOK, hargs] at h
    obtain ⟨w, hc, he⟩ := h
    cases hm : alookup s.cache.mem t.key with
    | some v0 =>
      have hv0 : v0 = w := by
        simp only [lookupCache, hm] at hc
        exact Option.some.inj hc
      subst hv0
      refine ⟨v0, he, ?_⟩
      simp [execInst, hargs, execDerived, hm]
    | none =>
      have hd : alookup s.cache.disk t.key = some w := by
        simp only [lookupCache, hm] at hc
        exact hc
      have hrun : execInst reg s t =
          ({ s with cache := { s.cache with mem := ainsert s.cache.mem t.key w },
                    env := ainsert s.env t.key w }, none) := by
        simp [execInst, hargs, execDerived, hm, hd]
      refine ⟨w, he, by simp [hrun], by simp [hrun], by simp [hrun], by simp [hrun], ?_⟩
      intro t' h'
      rw [hrun]
      cases hargs' : t'.args with
      | fixedArg v' => simp only [RefOK, hargs'] at h' ⊢; exact h'
      | positional ks' =>
        simp only [RefOK, hargs'] at h' ⊢
        obtain ⟨w', hc', he'⟩ := h'
        by_cases hk : t.key = t'.key
        · have hww : w' = w := by
            rw [← hk] at hc'
            simp only [lookupCache, hm, hd] at hc'
            exact (Option.some.inj hc').symm
          subst hww
          exact ⟨w', by simp [lookupCache_mem_insert, hk], he'⟩
        · exact ⟨w', by simp [lookupCache_mem_insert, hk, hc'], he'⟩
      | gathered ks' =>
        simp only [RefOK, hargs'] at h' ⊢
        obtain ⟨w', hc', he'⟩ := h'
        by_cases hk : t.key = t'.key
        · have hww : w' = w := by
            rw [← hk] at hc'
            simp only [lookupCache, hm, hd] at hc'
            exact (Option.some.inj hc').symm
          subst hww
          exact ⟨w', by simp [lookupCache_mem_insert, hk], he'⟩
        · exact ⟨w', by simp [lookupCache_mem_insert, hk, hc'], he'⟩

/-- Evaluating any task list against a cache that already justifies every
task succeeds, invokes no producing function, writes nothing to the
persistent tier, and reproduces the reference environment on the task
keys. -/
theorem exec_warm {reg : List Entity} {e1 : List (CaseKey × Val)} :
    ∀ (ts : List Inst) (s : EState),
    (∀ t ∈ ts, RefOK e1 s.cache t) →
    (execInsts reg s ts).2 = none ∧
    (execInsts reg s ts).1.calls = s.calls ∧
    (execInsts reg s ts).1.cache.disk = s.cache.disk ∧
    ∀ k, alookup (execInsts reg s ts).1.env k =
      (if k ∈ ts.map Inst.key then alookup e1 k else alookup s.env k) := by
  intro ts
  induction ts with
  | nil =>
    intro s _
    refine ⟨rfl, rfl, rfl, ?_⟩
    intro k
    simp [execInsts]
  | cons t ts ih =>
    intro s h
    obtain ⟨w, hw, hnone, hcalls, hdisk, henv, hpres⟩ :=
      @execInst_warm_step reg e1 s t (h t (List.mem_cons_self t ts))
    cases hstep : execInst reg s t with
    | mk s1 r =>
      rw [hstep] at hnone hcalls hdisk henv hpres
      simp only at hnone hcalls hdisk henv hpres
      cases r with
      | some e => cases hnone
      | none =>
        rw [execInsts_cons_ok hstep]
        have h' : ∀ t' ∈ ts, RefOK e1 s1.cache t' :=
          fun t' ht' => hpres t' (h t' (List.mem_cons_of_mem t ht'))
        obtain ⟨ih1, ih2, ih3, ih4⟩ := ih s1 h'
        refine ⟨ih1, by rw [ih2, hcalls], by rw [ih3, hdisk], ?_⟩
        intro k
        rw [ih4 k]
        by_cases hk1 : k ∈ ts.map Inst.key
        · simp [hk1]
        · by_cases hk2 : k = t.key
          · subst hk2
            simp [hk1, henv, alookup_ainsert, hw]
          · simp [hk1, hk2, henv, alookup_ainsert, Ne.symm hk2]

/-! ### Cold-run postcondition: a successful evaluation leaves every
derived Instance's value in the environment and in both cache tiers -/

theorem execInst_err_state {reg : List Entity} {s s1 : EState} {t : Inst}
    {e : GetError} (h : execInst reg s t = (s1, some e)) : s1 = s := by
  cases hargs : t.args with
  | fixedArg v => simp [execInst, hargs] at h
  | positional ks =>
    simp only [execInst, hargs] at h
    cases hm : alookup s.cache.mem t.key with
    | some v => simp [execDerived, hm] at h
    | none =>
      cases hd : alookup s.cache.disk t.key with
      | some v => simp [execDerived, hm, hd] at h
      | none =>
        simp only [execDerived, hm, hd, execMiss] at h
        cases ha : instArgs s t with
        | none => simp [ha] at h; exact h.1.symm
        | some args =>
          cases hf : fnOf reg t.entity with
          | none => simp [ha, hf] at h; exact h.1.symm
          | some fn =>
            cases hr : fn args with
            | error msg => simp [ha, hf, hr] at h; exact h.1.symm
            | ok v => simp [ha, hf, hr] at h
  | gathered ks =>
    simp only [execInst, hargs] at h
    cases hm : alookup s.cache.mem t.key with
    | some v => simp [execDerived, hm] at h
    | none =>
      cases hd : alookup s.cache.disk t.key with
      | some v => simp [execDerived, hm, hd] at h
      | none =>
        simp only [execDerived, hm, hd, execMiss] at h
        cases ha : instArgs s t with
        | none => simp [ha] at h; exact h.1.symm
        | some args =>
          cases hf : fnOf reg t.entity with
          | none => simp [ha, hf] at h; exact h.1.symm
          | some fn =>
            cases hr : fn args with
            | error msg => simp [ha, hf, hr] at h; exact h.1.symm
            | ok v => simp [ha, hf, hr] at h

theorem execInst_env_insert {reg : List Entity} {s : EState} {t : Inst}
    (hok : (execInst reg s t).2 = none) :
    ∃ w, (execInst reg s t).1.env = ainsert s.env t.key w := by
  cases hargs : t.args with
  | fixedArg v => exact ⟨v, by simp [execInst, hargs]⟩
  | positional ks =>
    simp only [execInst, hargs] at hok ⊢
    cases hm : alookup s.cache.mem t.key with
    | some v => exact ⟨v, by simp [execDerived, hm]⟩
    | none =>
      cases hd : alookup s.cache.disk t.key with
      | some v => exact ⟨v, by simp [execDerived, hm, hd]⟩
      | none =>
        simp only [execDerived, hm, hd, execMiss] at hok ⊢
        cases ha : instArgs s t with
        | none => simp [ha] at hok
        | some args =>
          cases hf : fnOf reg t.entity with
          | none => simp [ha, hf] at hok
          | some fn =>
            cases hr : fn args with
            | error msg => simp [ha, hf, hr] at hok
            | ok v => exact ⟨v, by simp [ha, hf, hr]⟩
  | gathered ks =>
    simp only [execInst, hargs] at hok ⊢
    cases hm : alookup s.cache.mem t.key with
    | some v => exact ⟨v, by simp [execDerived, hm]⟩
    | none =>
      cases hd : alookup s.cache.disk t.key with
      | some v => exact ⟨v, by simp [execDerived, hm, hd]⟩
      | none =>
        simp only [execDerived, hm, hd, execMiss] at hok ⊢
        cases ha : instArgs s t with
        | none => simp [ha] at hok
        | some args =>
          cases hf : fnOf reg t.entity with
          | none => simp [ha, hf] at hok
          | some fn =>
            cases hr : fn args with
            | error msg => simp [ha, hf, hr] at hok
            | ok v => exact ⟨v, by simp [ha, hf, hr]⟩

theorem execInsts_env_mono {reg : List Entity} :
    ∀ (ts : List Inst) (s : EState) (k : CaseKey),
    (alookup s.env k).isSome →
    (alookup (execInsts reg s ts).1.env k).isSome := by
  intro ts
  induction ts with
  | nil => intro s k h; exact h
  | cons t ts ih =>
    intro s k h
    cases hstep : execInst reg s t with
    | mk s1 r =>
      have h1 : (alookup s1.env k).isSome := by
        cases r with
        | none =>
          obtain ⟨w, hw⟩ := @execInst_env_insert reg s t (by rw [hstep])
          rw [hstep] at hw
          simp only at hw
          rw [hw, alookup_ainsert]
          by_cases hk : t.key = k
          · simp [hk]
          · simp [hk, h]
        | some e =>
          rw [execInst_err_state hstep]
          exact h
      cases r with
      | none => rw [execInsts_cons_ok hstep]; exact ih s1 k h1
      | some e => rw [execInsts_cons_err hstep]; exact h1

theorem exec_env_present {reg : List Entity} :
    ∀ (ts : List Inst) (s : EState),
    (execInsts reg s ts).2 = none →
    ∀ t ∈ ts, (alookup (execInsts reg s ts).1.env t.key).isSome := by
  intro ts
  induction ts with
  | nil => intro s _ t ht; cases ht
  | cons t ts ih =>
    intro s hsucc t' ht'
    cases hstep : execInst reg s t with
    | mk s1 r =>
      cases r with
      | some e => rw [execInsts_cons_err hstep] at hsucc; cases hsucc
      | none =>
        rw [execInsts_cons_ok hstep] at hsucc ⊢
        rcases List.mem_cons.mp ht' with h | h
        · subst h
          obtain ⟨w, hw⟩ := @execInst_env_insert reg s t' (by rw [hstep])
          rw [hstep] at hw
          simp only at hw
          exact execInsts_env_mono ts s1 t'.key (by simp [hw, alookup_ainsert])
        · exact ih s1 hsucc t' h

theorem CacheWF_mem_insert {c : Cache} {k : CaseKey} {w : Val}
    (hcw : CacheWF c) (hd : alookup c.disk k = some w) :
    CacheWF { c with mem := ainsert c.mem k w } := by
  intro k' u h
  simp only [alookup_ainsert] at h
  by_cases hk : k = k'
  · rw [if_pos hk] at h
    rw [← hk, hd]
    rw [← Option.some.inj h]
  · rw [if_neg hk] at h
    exact hcw k' u h

theorem CacheWF_insert_both {c : Cache} {k : CaseKey} {w : Val}
    (hcw : CacheWF c) :
    CacheWF { mem := ainsert c.mem k w, disk := ainsert c.disk k w } := by
  intro k' u h
  simp only [alookup_ainsert] at h ⊢
  by_cases hk : k = k'
  · rw [if_pos hk] at h
    rw [if_pos hk]
    exact h
  · rw [if_neg hk] at h
    rw [if_neg hk]
    exact hcw k' u h

theorem execInst_post_step {reg : List Entity} {s : EState} {t : Inst}
    (hwt : InstWF t) (hcw : CacheWF s.cache)
    (hok : (execInst reg s t).2 = none) :
    CacheWF (execInst reg s t).1.cache ∧
    PostOK (execInst reg s t).1 t ∧
    ∀ t0 : Inst, InstWF t0 → PostOK s t0 → PostOK (execInst reg s t).1 t0 := by
  cases hargs : t.args with
  | fixedArg v =>
    have hkey : t.key = .fixedKey t.entity v := by simpa [InstWF, hargs] using hwt
    have hrun : execInst reg s t = ({ s with env := ainsert s.env t.key v }, none) := by
      simp [execInst, hargs]
    rw [hrun]
    refine ⟨hcw, ?_, ?_⟩
    · simp [PostOK, hargs, alookup_ainsert]
    · intro t0 hwt0 hp0
      cases hargs0 : t0.args with
      | fixedArg v0 =>
        have hkey0 : t0.key = .fixedKey t0.entity v0 := by
          simpa [InstWF, hargs0] using hwt0
        simp only [PostOK, hargs0] at hp0 ⊢
        simp only [alookup_ainsert]
        by_cases hk : t.key = t0.key
        · rw [if_pos hk]
          rw [hkey, hkey0] at hk
          injection hk with h1 h2
          rw [h2]
        · rw [if_neg hk]
          exact hp0
      | positional ks0 =>
        simp only [PostOK, hargs0] at hp0 ⊢
        obtain ⟨w0, he0, hm0, hd0⟩ := hp0
        obtain ⟨ver0, kl0, hkey0⟩ : ∃ v2 k2, t0.key = .derived t0.entity v2 k2 := by
          simpa [InstWF, hargs0] using hwt0
        have hk : t.key ≠ t0.key := by
          rw [hkey, hkey0]
          intro hcon
          cases hcon
        refine ⟨w0, ?_, hm0, hd0⟩
        simp [alookup_ainsert, hk, he0]
      | gathered ks0 =>
        simp only [PostOK, hargs0] at hp0 ⊢
        obtain ⟨w0, he0, hm0, hd0⟩ := hp0
        obtain ⟨ver0, kl0, hkey0⟩ : ∃ v2 k2, t0.key = .derived t0.entity v2 k2 := by
          simpa [InstWF, hargs0] using hwt0
        have hk : t.key ≠ t0.key := by
          rw [hkey, hkey0]
          intro hcon
          cases hcon
        refine ⟨w0, ?_, hm0, hd0⟩
        simp [alookup_ainsert, hk, he0]
  | positional ks =>
    obtain ⟨tver, tks, hkey⟩ : ∃ v2 k2, t.key = .derived t.entity v2 k2 := by
      simpa [InstWF, hargs] using hwt
    simp only [execInst, hargs] at hok ⊢
    cases hm : alookup s.cache.mem t.key with
    | some v =>
      have hrun : execDerived reg s t = ({ s with env := ainsert s.env t.key v }, none) := by
        simp [execDerived, hm]
      rw [hrun]
      refine ⟨hcw, ?_, ?_⟩
      · simp only [PostOK, hargs]
        exact ⟨v, by simp [alookup_ainsert], hm, hcw _ _ hm⟩
      intro t0 hwt0 hp0
      cases hargs0 : t0.args with
      | fixedArg v0 =>
        have hkey0 : t0.key = .fixedKey t0.entity v0 := by
          simpa [InstWF, hargs0] using hwt0
        have hk : t.key ≠ t0.key := by
          rw [hkey, hkey0]; intro hcon; cases hcon
        simp only [PostOK, hargs0] at hp0 ⊢
        simp [alookup_ainsert, hk, hp0]
      | positional ks0 =>
        simp only [PostOK, hargs0] at hp0 ⊢
        obtain ⟨w0, he0, hm0, hd0⟩ := hp0
        by_cases hk : t.key = t0.key
        · have hw0 : w0 = v := by
            rw [← hk] at hm0
            rw [hm] at hm0
            exact (Option.some.inj hm0).symm
          subst hw0
          exact ⟨w0, by simp [alookup_ainsert, hk], hm0, hd0⟩
        · exact ⟨w0, by simp [alookup_ainsert, hk, he0], hm0, hd0⟩
      | gathered ks0 =>
        simp only [PostOK, hargs0] at hp0 ⊢
        obtain ⟨w0, he0, hm0, hd0⟩ := hp0
        by_cases hk : t.key = t0.key
        · have hw0 : w0 = v := by
            rw [← hk] at hm0
            rw [hm] at hm0
            exact (Option.some.inj hm0).symm
          subst hw0
          exact ⟨w0, by simp [alookup_ainsert, hk], hm0, hd0⟩
        · exact ⟨w0, by simp [alookup_ainsert, hk, he0], hm0, hd0⟩
    | none =>
      cases hd : alookup s.cache.disk t.key with
      | some v =>
        have hrun : execDerived reg s t =
            ({ s with cache := { s.cache with mem := ainsert s.cache.mem t.key v },
                      env := ainsert s.env t.key v }, none) := by
          simp [execDerived, hm, hd]
        rw [hrun]
        refine ⟨CacheWF_mem_insert hcw hd, ?_, ?_⟩
        · simp only [PostOK, hargs]
          exact ⟨v, by simp [alookup_ainsert], by simp [alookup_ainsert], hd⟩
        intro t0 hwt0 hp0
        cases hargs0 : t0.args with
        | fixedArg v0 =>
          have hkey0 : t0.key = .fixedKey t0.entity v0 := by
            simpa [InstWF, hargs0] using hwt0
          have hk : t.key ≠ t0.key := by
            rw [hkey, hkey0]; intro hcon; cases hcon
          simp only [PostOK, hargs0] at hp0 ⊢
          simp [alookup_ainsert, hk, hp0]
        | positional ks0 =>
          simp only [PostOK, hargs0] at hp0 ⊢
          obtain ⟨w0, he0, hm0, hd0⟩ := hp0
          have hk : t.key ≠ t0.key := by
            intro hcon
            rw [hcon] at hm
            rw [hm] at hm0
            cases hm0
          exact ⟨w0, by simp [alookup_ainsert, hk, he0],
            by simp [alookup_ainsert, hk, hm0], hd0⟩
        | gathered ks0 =>
          simp only [PostOK, hargs0] at hp0 ⊢
          obtain ⟨w0, he0, hm0, hd0⟩ := hp0
          have hk : t.key ≠ t0.key := by
            intro hcon
            rw [hcon] at hm
            rw [hm] at hm0
            cases hm0
          exact ⟨w0, by simp [alookup_ainsert, hk, he0],
            by simp [alookup_ainsert, hk, hm0], hd0⟩
      | none =>
        simp only [execDerived, hm, hd, execMiss] at hok ⊢
        cases ha : instArgs s t with
        | none => simp [ha] at hok
        | some args =>
          cases hf : fnOf reg t.entity with
          | none => simp [ha, hf] at hok
          | some fn =>
            cases hr : fn args with
            | error msg => simp [ha, hf, hr] at hok
            | ok v =>
              simp only [ha, hf, hr]
              refine ⟨CacheWF_insert_both hcw, ?_, ?_⟩
              · simp only [PostOK, hargs]
                exact ⟨v, by simp [alookup_ainsert],
                  by simp [alookup_ainsert], by simp [alookup_ainsert]⟩
              intro t0 hwt0 hp0
              cases hargs0 : t0.args with
              | fixedArg v0 =>
                have hkey0 : t0.key = .fixedKey t0.entity v0 := by
                  simpa [InstWF, hargs0] using hwt0
                have hk : t.key ≠ t0.key := by
                  rw [hkey, hkey0]; intro hcon; cases hcon
                simp only [PostOK, hargs0] at hp0 ⊢
                simp [alookup_ainsert, hk, hp0]
              | positional ks0 =>
                simp only [PostOK, hargs0] at hp0 ⊢
                obtain ⟨w0, he0, hm0, hd0⟩ := hp0
                have hk : t.key ≠ t0.key := by
                  intro hcon
                  rw [hcon] at hm
                  rw [hm] at hm0
                  cases hm0
                exact ⟨w0, by simp [alookup_ainsert, hk, he0],
                  by simp [alookup_ainsert, hk, hm0],
                  by simp [alookup_ainsert, hk, hd0]⟩
              | gathered ks0 =>
                simp only [PostOK, hargs0] at hp0 ⊢
                obtain ⟨w0, he0, hm0, hd0⟩ := hp0
                have hk : t.key ≠ t0.key := by
                  intro hcon
                  rw [hcon] at hm
                  rw [hm] at hm0
                  cases hm0
                exact ⟨w0, by simp [alookup_ainsert, hk, he0],
                  by simp [alookup_ainsert, hk, hm0],
                  by simp [alookup_ainsert, hk, hd0]⟩
  | gathered ks =>
    obtain ⟨tver, tks, hkey⟩ : ∃ v2 k2, t.key = .derived t.entity v2 k2 := by
      simpa [InstWF, hargs] using hwt
    simp only [execInst, hargs] at hok ⊢
    cases hm : alookup s.cache.mem t.key with
    | some v =>
      have hrun : execDerived reg s t = ({ s with env := ainsert s.env t.key v }, none) := by
        simp [execDerived, hm]
      rw [hrun]
      refine ⟨hcw, ?_, ?_⟩
      · simp only [PostOK, hargs]
        exact ⟨v, by simp [alookup_ainsert], hm, hcw _ _ hm⟩
      intro t0 hwt0 hp0
      cases hargs0 : t0.args with
      | fixedArg v0 =>
        have hkey0 : t0.key = .fixedKey t0.entity v0 := by
          simpa [InstWF, hargs0] using hwt0
        have hk : t.key ≠ t0.key := by
          rw [hkey, hkey0]; intro hcon; cases hcon
        simp only [PostOK, hargs0] at hp0 ⊢
        simp [alookup_ainsert, hk, hp0]
      | positional ks0 =>
        simp only [PostOK, hargs0] at hp0 ⊢
        obtain ⟨w0, he0, hm0, hd0⟩ := hp0
        by_cases hk : t.key = t0.key
        · have hw0 : w0 = v := by
            rw [← hk] at hm0
            rw [hm] at hm0
            exact (Option.some.inj hm0).symm
          subst hw0
          exact ⟨w0, by simp [alookup_ainsert, hk], hm0, hd0⟩
        · exact ⟨w0, by simp [alookup_ainsert, hk, he0], hm0, hd0⟩
      | gathered ks0 =>
        simp only [PostOK, hargs0] at hp0 ⊢
        obtain ⟨w0, he0, hm0, hd0⟩ := hp0
        by_cases hk : t.key = t0.key
        · have hw0 : w0 = v := by
            rw [← hk] at hm0
            rw [hm] at hm0
            exact (Option.some.inj hm0).symm
          subst hw0
          exact ⟨w0, by simp [alookup_ainsert, hk], hm0, hd0⟩
        · exact ⟨w0, by simp [alookup_ainsert, hk, he0], hm0, hd0⟩
    | none =>
      cases hd : alookup s.cache.disk t.key with
      | some v =>
        have hrun : execDerived reg s t =
            ({ s with cache := { s.cache with mem := ainsert s.cache.mem t.key v },
                      env := ainsert s.env t.key v }, none) := by
          simp [execDerived, hm, hd]
        rw [hrun]
        refine ⟨CacheWF_mem_insert hcw hd, ?_, ?_⟩
        · simp only [PostOK, hargs]
          exact ⟨v, by simp [alookup_ainsert], by simp [alookup_ainsert], hd⟩
        intro t0 hwt0 hp0
        cases hargs0 : t0.args with
        | fixedArg v0 =>
          have hkey0 : t0.key = .fixedKey t0.entity v0 := by
            simpa [InstWF, hargs0] using hwt0
          have hk : t.key ≠ t0.key := by
            rw [hkey, hkey0]; intro hcon; cases hcon
          simp only [PostOK, hargs0] at hp0 ⊢
          simp [alookup_ainsert, hk, hp0]
        | positional ks0 =>
          simp only [PostOK, hargs0] at hp0 ⊢
          obtain ⟨w0, he0, hm0, hd0⟩ := hp0
          have hk : t.key ≠ t0.key := by
            intro hcon
            rw [hcon] at hm
            rw [hm] at hm0
            cases hm0
          exact ⟨w0, by simp [alookup_ainsert, hk, he0],
            by simp [alookup_ainsert, hk, hm0], hd0⟩
        | gathered ks0 =>
          simp only [PostOK, hargs0] at hp0 ⊢
          obtain ⟨w0, he0, hm0, hd0⟩ := hp0
          have hk : t.key ≠ t0.key := by
            intro hcon
            rw [hcon] at hm
            rw [hm] at hm0
            cases hm0
          exact ⟨w0, by simp [alookup_ainsert, hk, he0],
            by simp [alookup_ainsert, hk, hm0], hd0⟩
      | none =>
        simp only [execDerived, hm, hd, execMiss] at hok ⊢
        cases ha : instArgs s t with
        | none => simp [ha] at hok
        | some args =>
          cases hf : fnOf reg t.entity with
          | none => simp [ha, hf] at hok
          | some fn =>
            cases hr : fn args with
            | error msg => simp [ha, hf, hr] at hok
            | ok v =>
              simp only [ha, hf, hr]
              refine ⟨CacheWF_insert_both hcw, ?_, ?_⟩
              · simp only [PostOK, hargs]
                exact ⟨v, by simp [alookup_ainsert],
                  by simp [alookup_ainsert], by simp [alookup_ainsert]⟩
              intro t0 hwt0 hp0
              cases hargs0 : t0.args with
              | fixedArg v0 =>
                have hkey0 : t0.key = .fixedKey t0.entity v0 := by
                  simpa [InstWF, hargs0] using hwt0
                have hk : t.key ≠ t0.key := by
                  rw [hkey, hkey0]; intro hcon; cases hcon
                simp only [PostOK, hargs0] at hp0 ⊢
                simp [alookup_ainsert, hk, hp0]
              | positional ks0 =>
                simp only [PostOK, hargs0] at hp0 ⊢
                obtain ⟨w0, he0, hm0, hd0⟩ := hp0
                have hk : t.key ≠ t0.key := by
                  intro hcon
                  rw [hcon] at hm
                  rw [hm] at hm0
                  cases hm0
                exact ⟨w0, by simp [alookup_ainsert, hk, he0],
                  by simp [alookup_ainsert, hk, hm0],
                  by simp [alookup_ainsert, hk, hd0]⟩
              | gathered ks0 =>
                simp only [PostOK, hargs0] at hp0 ⊢
                obtain ⟨w0, he0, hm0, hd0⟩ := hp0
                have hk : t.key ≠ t0.key := by
                  intro hcon
                  rw [hcon] at hm
                  rw [hm] at hm0
                  cases hm0
                exact ⟨w0, by simp [alookup_ainsert, hk, he0],
                  by simp [alookup_ainsert, hk, hm0],
                  by simp [alookup_ainsert, hk, hd0]⟩

/-- A successful evaluation leaves a well-formed cache, establishes
`PostOK` for every task, and preserves every previously established
`PostOK` fact. -/
theorem exec_post {reg : List Entity} :
    ∀ (ts : List Inst) (s : EState),
    (∀ t ∈ ts, InstWF t) → CacheWF s.cache →
    (execInsts reg s ts).2 = none →
    CacheWF (execInsts reg s ts).1.cache ∧
    (∀ t ∈ ts, PostOK (execInsts reg s ts).1 t) ∧
    (∀ t0 : Inst, InstWF t0 → PostOK s t0 → PostOK (execInsts reg s ts).1 t0) := by
  intro ts
  induction ts with
  | nil =>
    intro s _ hcw _
    exact ⟨hcw, fun t ht => absurd ht (List.not_mem_nil t), fun t0 _ hp => hp⟩
  | cons t ts ih =>
    intro s hwf hcw hsucc
    cases hstep : execInst reg s t with
    | mk s1 r =>
      cases r with
      | some e => rw [execInsts_cons_err hstep] at hsucc; cases hsucc
      | none =>
        rw [execInsts_cons_ok hstep] at hsucc ⊢
        obtain ⟨hcw1, hp1, hpres1⟩ :=
          @execInst_post_step reg s t (hwf t (List.mem_cons_self t ts))
            hcw (by rw [hstep])
        rw [hstep] at hcw1 hp1 hpres1
        simp only at hcw1 hp1 hpres1
        obtain ⟨hcwF, hpF, hpresF⟩ :=
          ih s1 (fun t' ht' => hwf t' (List.mem_cons_of_mem t ht')) hcw1 hsucc
        refine ⟨hcwF, ?_, ?_⟩
        · intro t' ht'
          rcases List.mem_cons.mp ht' with h | h
          · subst h
            exact hpresF t' (hwf t' (List.mem_cons_self t' ts)) hp1
          · exact hpF t' h
        · intro t0 hwt0 hp0
          exact hpresF t0 hwt0 (hpres1 t0 hwt0 hp0)

/-- A `PostOK` fact justifies re-evaluation against the same cache. -/
theorem PostOK_RefOK_self {s : EState} {t : Inst} (h : PostOK s t) :
    RefOK s.env s.cache t := by
  cases hargs : t.args with
  | fixedArg v =>
    simp only [PostOK, hargs] at h
    simp only [RefOK, hargs]
    exact h
  | positional ks =>
    simp only [PostOK, hargs] at h
    simp only [RefOK, hargs]
    obtain ⟨w, he, hm, _⟩ := h
    exact ⟨w, by simp [lookupCache, hm], he⟩
  | gathered ks =>
    simp only [PostOK, hargs] at h
    simp only [RefOK, hargs]
    obtain ⟨w, he, hm, _⟩ := h
    exact ⟨w, by simp [lookupCache, hm], he⟩

/-- A `PostOK` fact justifies re-evaluation against a cache that kept
only the persistent tier (a fresh process sharing the durable store). -/
theorem PostOK_RefOK_disk {s : EState} {t : Inst} (h : PostOK s t) :
    RefOK s.env { mem := [], disk := s.cache.disk } t := by
  cases hargs : t.args with
  | fixedArg v =>
    simp only [PostOK, hargs] at h
    simp only [RefOK, hargs]
    exact h
  | positional ks =>
    simp only [PostOK, hargs] at h
    simp only [RefOK, hargs]
    obtain ⟨w, he, _, hd⟩ := h
    exact ⟨w, by simp [lookupCache, alookup, hd], he⟩
  | gathered ks =>
    simp only [PostOK, hargs] at h
    simp only [RefOK, hargs]
    obtain ⟨w, he, _, hd⟩ := h
    exact ⟨w, by simp [lookupCache, alookup, hd], he⟩

/-! ### Invocation counting -/

theorem execInst_calls_shape {reg : List Entity} {s : EState} {t : Inst} :
    (execInst reg s t).1.calls = s.calls ∨
    (execInst reg s t).1.calls = bump s.calls t.entity := by
  cases hargs : t.args with
  | fixedArg v => left; simp [execInst, hargs]
  | positional ks =>
    simp only [execInst, hargs]
    cases hm : alookup s.cache.mem t.key with
    | some v => left; simp [execDerived, hm]
    | none =>
      cases hd : alookup s.cache.disk t.key with
      | some v => left; simp [execDerived, hm, hd]
      | none =>
        simp only [execDerived, hm, hd, execMiss]
        cases ha : instArgs s t with
        | none => left; simp
        | some args =>
          cases hf : fnOf reg t.entity with
          | none => left; simp
          | some fn =>
            cases hr : fn args with
            | error msg => left; simp [hr]
            | ok v => right; simp [hr]
  | gathered ks =>
    simp only [execInst, hargs]
    cases hm : alookup s.cache.mem t.key with
    | some v => left; simp [execDerived, hm]
    | none =>
      cases hd : alookup s.cache.disk t.key with
      | some v => left; simp [execDerived, hm, hd]
      | none =>
        simp only [execDerived, hm, hd, execMiss]
        cases ha : instArgs s t with
        | none => left; simp
        | some args =>
          cases hf : fnOf reg t.entity with
          | none => left; simp
          | some fn =>
            cases hr : fn args with
            | error msg => left; simp [hr]
            | ok v => right; simp [hr]

theorem callsOf_execInst_le {reg : List Entity} {s : EState} {t : Inst} (E : String) :
    callsOf (execInst reg s t).1.calls E
      ≤ callsOf s.calls E + (if (t.entity == E) = true then 1 else 0) := by
  rcases @execInst_calls_shape reg s t with h | h
  · rw [h]; omega
  · rw [h]
    by_cases he : t.entity = E
    · subst he
      rw [callsOf_bump_self]
      simp
    · rw [callsOf_bump_other _ he]
      simp [he]

theorem callsOf_execInst_mono {reg : List Entity} {s : EState} {t : Inst} (E : String) :
    callsOf s.calls E ≤ callsOf (execInst reg s t).1.calls E := by
  rcases @execInst_calls_shape reg s t with h | h
  · rw [h]
  · rw [h]
    by_cases he : t.entity = E
    · subst he; rw [callsOf_bump_self]; omega
    · rw [callsOf_bump_other _ he]

theorem callsOf_execInsts_le {reg : List Entity} (E : String) :
    ∀ (ts : List Inst) (s : EState),
    callsOf (execInsts reg s ts).1.calls E
      ≤ callsOf s.calls E + (ts.filter (fun t => t.entity == E)).length := by
  intro ts
  induction ts with
  | nil => intro s; simp [execInsts]
  | cons t ts ih =>
    intro s
    cases hstep : execInst reg s t with
    | mk s1 r =>
      have hs1 : callsOf s1.calls E
          ≤ callsOf s.calls E + (if (t.entity == E) = true then 1 else 0) := by
        have := @callsOf_execInst_le reg s t E
        rw [hstep] at this
        exact this
      cases r with
      | some e =>
        rw [execInsts_cons_err hstep]
        simp only [List.filter_cons]
        by_cases he : (t.entity == E) = true <;> simp [he] at hs1 ⊢ <;> omega
      | none =>
        rw [execInsts_cons_ok hstep]
        have := ih s1
        simp only [List.filter_cons]
        by_cases he : (t.entity == E) = true <;> simp [he] at hs1 ⊢ <;> omega

theorem callsOf_execInsts_mono {reg : List Entity} (E : String) :
    ∀ (ts : List Inst) (s : EState),
    callsOf s.calls E ≤ callsOf (execInsts reg s ts).1.calls E := by
  intro ts
  induction ts with
  | nil => intro s; exact Nat.le_refl _
  | cons t ts ih =>
    intro s
    cases hstep : execInst reg s t with
    | mk s1 r =>
      have hs1 : callsOf s.calls E ≤ callsOf s1.calls E := by
        have := @callsOf_execInst_mono reg s t E
        rw [hstep] at this
        exact this
      cases r with
      | some e => rw [execInsts_cons_err hstep]; exact hs1
      | none => rw [execInsts_cons_ok hstep]; exact Nat.le_trans hs1 (ih s1)

theorem execInst_miss_calls {reg : List Entity} {s : EState} {t : Inst}
    (hnf : t.fixedB = false)
    (hm : alookup s.cache.mem t.key = none)
    (hd : alookup s.cache.disk t.key = none)
    (hok : (execInst reg s t).2 = none) :
    (execInst reg s t).1.calls = bump s.calls t.entity := by
  cases hargs : t.args with
  | fixedArg v => simp [Inst.fixedB, hargs] at hnf
  | positional ks =>
    simp only [execInst, hargs, execDerived, hm, hd, execMiss] at hok ⊢
    cases ha : instArgs s t with
    | none => simp [ha] at hok
    | some args =>
      cases hf : fnOf reg t.entity with
      | none => simp [ha, hf] at hok
      | some fn =>
        cases hr : fn args with
        | error msg => simp [ha, hf, hr] at hok
        | ok v => simp [ha, hf, hr]
  | gathered ks =>
    simp only [execInst, hargs, execDerived, hm, hd, execMiss] at hok ⊢
    cases ha : instArgs s t with
    | none => simp [ha] at hok
    | some args =>
      cases hf : fnOf reg t.entity with
      | none => simp [ha, hf] at hok
      | some fn =>
        cases hr : fn args with
        | error msg => simp [ha, hf, hr] at hok
        | ok v => simp [ha, hf, hr]

/-! ### Cache keys only ever come from evaluated Instances -/

theorem execInst_cache_keys {reg : List Entity} {s : EState} {t : Inst} (k : CaseKey) :
    ((alookup (execInst reg s t).1.cache.mem k).isSome →
      (alookup s.cache.mem k).isSome ∨ k = t.key) ∧
    ((alookup (execInst reg s t).1.cache.disk k).isSome →
      (alookup s.cache.disk k).isSome ∨ k = t.key) := by
  cases hargs : t.args with
  | fixedArg v =>
    constructor <;> (intro h; left; simpa [execInst, hargs] using h)
  | positional ks =>
    simp only [execInst, hargs]
    cases hm : alookup s.cache.mem t.key with
    | some v =>
      constructor <;> (intro h; left; simpa [execDerived, hm] using h)
    | none =>
      cases hd : alookup s.cache.disk t.key with
      | some v =>
        constructor
        · intro h
          simp only [execDerived, hm, hd] at h
          simp only [alookup_ainsert] at h
          by_cases hk : t.key = k
          · right; exact hk.symm
          · left; rw [if_neg hk] at h; exact h
        · intro h
          left
          simpa [execDerived, hm, hd] using h
      | none =>
        simp only [execDerived, hm, hd, execMiss]
        cases ha : instArgs s t with
        | none => constructor <;> (intro h; left; simpa using h)
        | some args =>
          cases hf : fnOf reg t.entity with
          | none => constructor <;> (intro h; left; simpa using h)
          | some fn =>
            cases hr : fn args with
            | error msg => constructor <;> (intro h; left; simpa [hr] using h)
            | ok v =>
              constructor
              · intro h
                simp only [hr, alookup_ainsert] at h
                by_cases hk : t.key = k
                · right; exact hk.symm
                · left; rw [if_neg hk] at h; exact h
              · intro h
                simp only [hr, alookup_ainsert] at h
                by_cases hk : t.key = k
                · right; exact hk.symm
                · left; rw [if_neg hk] at h; exact h
  | gathered ks =>
    simp only [execInst, hargs]
    cases hm : alookup s.cache.mem t.key with
    | some v =>
      constructor <;> (intro h; left; simpa [execDerived, hm] using h)
    | none =>
      cases hd : alookup s.cache.disk t.key with
      | some v =>
        constructor
        · intro h
          simp only [execDerived, hm, hd] at h
          simp only [alookup_ainsert] at h
          by_cases hk : t.key = k
          · right; exact hk.symm
          · left; rw [if_neg hk] at h; exact h
        · intro h
          left
          simpa [execDerived, hm, hd] using h
      | none =>
        simp only [execDerived, hm, hd, execMiss]
        cases ha : instArgs s t with
        | none => constructor <;> (intro h; left; simpa using h)
        | some args =>
          cases hf : fnOf reg t.entity with
          | none => constructor <;> (intro h; left; simpa using h)
          | some fn =>
            cases hr : fn args with
            | error msg => constructor <;> (intro h; left; simpa [hr] using h)
            | ok v =>
              constructor
              · intro h
                simp only [hr, alookup_ainsert] at h
                by_cases hk : t.key = k
                · right; exact hk.symm
                · left; rw [if_neg hk] at h; exact h
              · intro h
                simp only [hr, alookup_ainsert] at h
                by_cases hk : t.key = k
                · right; exact hk.symm
                · left; rw [if_neg hk] at h; exact h

theorem execInsts_cache_keys {reg : List Entity} :
    ∀ (ts : List Inst) (s : EState) (k : CaseKey),
    ((alookup (execInsts reg s ts).1.cache.mem k).isSome →
      (alookup s.cache.mem k).isSome ∨ k ∈ ts.map Inst.key) ∧
    ((alookup (execInsts reg s ts).1.cache.disk k).isSome →
      (alookup s.cache.disk k).isSome ∨ k ∈ ts.map Inst.key) := by
  intro ts
  induction ts with
  | nil => intro s k; exact ⟨fun h => Or.inl h, fun h => Or.inl h⟩
  | cons t ts ih =>
    intro s k
    cases hstep : execInst reg s t with
    | mk s1 r =>
      have hone := @execInst_cache_keys reg s t k
      rw [hstep] at hone
      simp only at hone
      cases r with
      | some e =>
        rw [execInsts_cons_err hstep]
        exact ⟨fun h => (hone.1 h).imp id (fun hk => by simp [hk]),
               fun h => (hone.2 h).imp id (fun hk => by simp [hk])⟩
      | none =>
        rw [execInsts_cons_ok hstep]
        constructor
        · intro h
          rcases (ih s1 k).1 h with h1 | h1
          · rcases hone.1 h1 with h2 | h2
            · left; exact h2
            · right; simp [h2]
          · right; simp [h1]
        · intro h
          rcases (ih s1 k).2 h with h1 | h1
          · rcases hone.2 h1 with h2 | h2
            · left; exact h2
            · right; simp [h2]
          · right; simp [h1]

/-! ### Structure of the resolved table and of task lists -/

theorem instsFor_entity {tbl : List (String × List Inst)}
    {asn : List (String × List Val)} {e : Entity} :
    ∀ t ∈ instsFor tbl asn e, t.entity = e.name := by
  intro t ht
  unfold instsFor at ht
  cases halk : alookup asn e.name with
  | some vs =>
    rw [halk] at ht
    obtain ⟨p, _, hp⟩ := List.mem_map.mp ht
    rw [← hp]
  | none =>
    rw [halk] at ht
    cases hrole : e.role with
    | ordinary =>
      rw [hrole] at ht
      obtain ⟨combo, _, hp⟩ := List.mem_map.mp ht
      rw [← hp]
    | gatherTarget gs =>
      rw [hrole] at ht
      obtain ⟨combo, _, hp⟩ := List.mem_map.mp ht
      rw [← hp]

theorem instsFor_WF {tbl : List (String × List Inst)}
    {asn : List (String × List Val)} {e : Entity} :
    ∀ t ∈ instsFor tbl asn e, InstWF t := by
  intro t ht
  unfold instsFor at ht
  cases halk : alookup asn e.name with
  | some vs =>
    rw [halk] at ht
    obtain ⟨p, _, hp⟩ := List.mem_map.mp ht
    rw [← hp]
    simp [InstWF]
  | none =>
    rw [halk] at ht
    cases hrole : e.role with
    | ordinary =>
      rw [hrole] at ht
      obtain ⟨combo, _, hp⟩ := List.mem_map.mp ht
      rw [← hp]
      exact ⟨e.ver, combo.map (fun t => t.key), rfl⟩
    | gatherTarget gs =>
      rw [hrole] at ht
      obtain ⟨combo, _, hp⟩ := List.mem_map.mp ht
      rw [← hp]
      refine ⟨e.ver, _, rfl⟩

theorem buildTableAux_blocks {asn : List (String × List Val)}
    (P : String × List Inst → Prop)
    (hP : ∀ (tbl : List (String × List Inst)) (e : Entity),
      P (e.name, instsFor tbl asn e)) :
    ∀ (rest : List Entity) (tbl : List (String × List Inst)),
    (∀ p ∈ tbl, P p) → ∀ p ∈ buildTableAux asn rest tbl, P p := by
  intro rest
  induction rest with
  | nil => intro tbl h p hp; exact h p hp
  | cons e rest ih =>
    intro tbl h p hp
    refine ih _ ?_ p hp
    intro q hq
    rcases List.mem_append.mp hq with h1 | h1
    · exact h q h1
    · rw [List.mem_singleton.mp h1]
      exact hP tbl e

theorem table_block_entity {reg : List Entity} {asn : List (String × List Val)} :
    ∀ p ∈ buildTable reg asn, ∀ t ∈ p.2, t.entity = p.1 := by
  intro p hp
  refine buildTableAux_blocks (fun q => ∀ t ∈ q.2, t.entity = q.1) ?_ reg [] ?_ p hp
  · intro tbl e t ht
    exact instsFor_entity t ht
  · intro q hq
    cases hq

theorem table_block_WF {reg : List Entity} {asn : List (String × List Val)} :
    ∀ p ∈ buildTable reg asn, ∀ t ∈ p.2, InstWF t := by
  intro p hp
  refine buildTableAux_blocks (fun q => ∀ t ∈ q.2, InstWF t) ?_ reg [] ?_ p hp
  · intro tbl e t ht
    exact instsFor_WF t ht
  · intro q hq
    cases hq

theorem tasksOf_WF {f : Flow} {target : String} :
    ∀ t ∈ tasksOf f target, InstWF t := by
  intro t ht
  unfold tasksOf at ht
  obtain ⟨p, hp, hmem⟩ := List.mem_flatMap.mp ht
  by_cases hnd : (neededOf f.reg target).contains p.1
  · rw [if_pos hnd] at hmem
    exact table_block_WF p hp t hmem
  · rw [if_neg hnd] at hmem
    cases hmem

theorem wfA_names_nodup :
    ∀ (l : List Entity) (seen : List String), wfA l seen = true →
    (∀ n ∈ l.map Entity.name, n ∉ seen) ∧ (l.map Entity.name).Nodup := by
  intro l
  induction l with
  | nil => intro seen _; exact ⟨by simp, List.nodup_nil⟩
  | cons e rest ih =>
    intro seen h
    rw [wfA] at h
    simp only [Bool.and_eq_true] at h
    obtain ⟨⟨⟨hfresh, _⟩, _⟩, hrest⟩ := h
    obtain ⟨ihnot, ihnd⟩ := ih (e.name :: seen) hrest
    constructor
    · intro n hn
      simp only [List.map_cons, List.mem_cons] at hn
      rcases hn with h1 | h1
      · subst h1
        simp at hfresh
        exact fun hmem => hfresh hmem
      · intro hmem
        exact ihnot n h1 (List.mem_cons_of_mem _ hmem)
    · simp only [List.map_cons]
      refine List.nodup_cons.mpr ⟨?_, ihnd⟩
      intro hmem
      exact ihnot e.name hmem (List.mem_cons_self _ _)

theorem neededAux_sub : ∀ (l : List Entity) (acc : List String),
    acc ⊆ neededAux l acc := by
  intro l
  induction l with
  | nil => intro acc; exact List.Subset.refl acc
  | cons e rest ih =>
    intro acc
    rw [neededAux]
    by_cases h : acc.contains e.name
    · rw [if_pos h]
      intro x hx
      exact ih _ (List.mem_append_left _ (List.mem_append_left _ hx))
    · rw [if_neg h]
      exact ih acc

theorem mem_neededOf_self (reg : List Entity) (E : String) :
    E ∈ neededOf reg E :=
  neededAux_sub reg.reverse [E] (List.mem_singleton.mpr rfl)

theorem instsOf_sub_tasksOf (f : Flow) (E : String) :
    ∀ t ∈ instsOf f E, t ∈ tasksOf f E := by
  intro t ht
  unfold instsOf at ht
  cases halk : alookup (buildTable f.reg f.asn) E with
  | none => rw [halk] at ht; cases ht
  | some insts =>
    rw [halk] at ht
    simp only [Option.getD_some] at ht
    refine List.mem_flatMap.mpr ⟨(E, insts), alookup_mem_pair halk, ?_⟩
    rw [if_pos (by simpa using mem_neededOf_self f.reg E)]
    exact ht

theorem flatMap_filter_entity_zero {nd : List String} {E : String} :
    ∀ (tbl : List (String × List Inst)),
    (∀ p ∈ tbl, ∀ t ∈ p.2, t.entity = p.1) →
    (∀ p ∈ tbl, p.1 ≠ E) →
    ((tbl.flatMap (fun p => if nd.contains p.1 then p.2 else [])).filter
      (fun t => t.entity == E)).length = 0 := by
  intro tbl
  induction tbl with
  | nil => intro _ _; rfl
  | cons p rest ih =>
    intro hent hne
    rw [List.flatMap_cons, List.filter_append, List.length_append]
    have h1 : ((if nd.contains p.1 then p.2 else []).filter
        (fun t => t.entity == E)).length = 0 := by
      by_cases hnd : nd.contains p.1
      · rw [if_pos hnd]
        rw [List.length_eq_zero]
        rw [List.filter_eq_nil_iff]
        intro t ht
        have := hent p (List.mem_cons_self _ _) t ht
        simp [this, hne p (List.mem_cons_self _ _)]
      · rw [if_neg hnd]; rfl
    rw [h1, ih (fun q hq => hent q (List.mem_cons_of_mem _ hq))
      (fun q hq => hne q (List.mem_cons_of_mem _ hq))]

theorem flatMap_filter_entity {E : String} :
    ∀ (tbl : List (String × List Inst)) (nd : List String),
    (∀ p ∈ tbl, ∀ t ∈ p.2, t.entity = p.1) →
    (tbl.map Prod.fst).Nodup →
    E ∈ nd →
    ((tbl.flatMap (fun p => if nd.contains p.1 then p.2 else [])).filter
      (fun t => t.entity == E)).length
      = ((alookup tbl E).getD []).length := by
  intro tbl
  induction tbl with
  | nil => intro nd _ _ _; simp [alookup]
  | cons p rest ih =>
    intro nd hent hnd hEnd
    obtain ⟨n, il⟩ := p
    simp only [List.map_cons] at hnd
    obtain ⟨hn1, hn2⟩ := List.nodup_cons.mp hnd
    rw [List.flatMap_cons, List.filter_append, List.length_append]
    by_cases hnE : n = E
    · subst hnE
      have hblock : ((if nd.contains n then il else []).filter
          (fun t => t.entity == n)).length = il.length := by
        rw [if_pos (by simpa using hEnd)]
        have hself : il.filter (fun t => t.entity == n) = il := by
          rw [List.filter_eq_self]
          intro t ht
          have := hent (n, il) (List.mem_cons_self _ _) t ht
          simp only at this
          simp [this]
        rw [hself]
      have hrest : ((rest.flatMap (fun p => if nd.contains p.1 then p.2 else [])).filter
          (fun t => t.entity == n)).length = 0 := by
        refine flatMap_filter_entity_zero rest
          (fun q hq => hent q (List.mem_cons_of_mem _ hq)) ?_
        intro q hq hcon
        exact hn1 (hcon ▸ List.mem_map_of_mem Prod.fst hq)
      rw [hblock, hrest]
      simp [alookup]
    · have hblock : ((if nd.contains n then il else []).filter
          (fun t => t.entity == E)).length = 0 := by
        by_cases hc : nd.contains n
        · rw [if_pos hc, List.length_eq_zero, List.filter_eq_nil_iff]
          intro t ht
          have := hent (n, il) (List.mem_cons_self _ _) t ht
          simp only at this
          simp [this, hnE]
        · rw [if_neg hc]; rfl
      rw [hblock]
      have := ih nd (fun q hq => hent q (List.mem_cons_of_mem _ hq)) hn2 hEnd
      rw [this]
      simp [alookup, hnE]

/-- Among the tasks materialized for a `get` of E, the Instances whose
entity is E are exactly E's resolved Instances. -/
theorem tasksOf_filter_self (f : Flow) (E : String) (hwf : wfReg f.reg = true) :
    ((tasksOf f E).filter (fun t => t.entity == E)).length = multOf f E := by
  unfold tasksOf multOf instsOf
  have hnames : (buildTable f.reg f.asn).map Prod.fst = f.reg.map Entity.name := by
    simpa using buildTableAux_names f.asn f.reg []
  refine flatMap_filter_entity (buildTable f.reg f.asn) (neededOf f.reg E)
    table_block_entity ?_ (mem_neededOf_self f.reg E)
  rw [hnames]
  exact (wfA_names_nodup f.reg [] hwf).2

theorem InstWF_ne_key {t t' : Inst} (hw : InstWF t) (hw' : InstWF t')
    (hne : t.entity ≠ t'.entity) (hnf : t.fixedB = false) : t.key ≠ t'.key := by
  cases hargs : t.args with
  | fixedArg v => simp [Inst.fixedB, hargs] at hnf
  | positional ks =>
    obtain ⟨ver1, ks1, hk1⟩ : ∃ v2 k2, t.key = .derived t.entity v2 k2 := by
      simpa [InstWF, hargs] using hw
    cases hargs' : t'.args with
    | fixedArg v' =>
      have hk2 : t'.key = .fixedKey t'.entity v' := by
        simpa [InstWF, hargs'] using hw'
      rw [hk1, hk2]
      intro hcon
      cases hcon
    | positional ks' =>
      obtain ⟨ver2, ks2, hk2⟩ : ∃ v2 k2, t'.key = .derived t'.entity v2 k2 := by
        simpa [InstWF, hargs'] using hw'
      rw [hk1, hk2]
      intro hcon
      injection hcon with h1 _ _
      exact hne h1
    | gathered ks' =>
      obtain ⟨ver2, ks2, hk2⟩ : ∃ v2 k2, t'.key = .derived t'.entity v2 k2 := by
        simpa [InstWF, hargs'] using hw'
      rw [hk1, hk2]
      intro hcon
      injection hcon with h1 _ _
      exact hne h1
  | gathered ks =>
    obtain ⟨ver1, ks1, hk1⟩ : ∃ v2 k2, t.key = .derived t.entity v2 k2 := by
      simpa [InstWF, hargs] using hw
    cases hargs' : t'.args with
    | fixedArg v' =>
      have hk2 : t'.key = .fixedKey t'.entity v' := by
        simpa [InstWF, hargs'] using hw'
      rw [hk1, hk2]
      intro hcon
      cases hcon
    | positional ks' =>
      obtain ⟨ver2, ks2, hk2⟩ : ∃ v2 k2, t'.key = .derived t'.entity v2 k2 := by
        simpa [InstWF, hargs'] using hw'
      rw [hk1, hk2]
      intro hcon
      injection hcon with h1 _ _
      exact hne h1
    | gathered ks' =>
      obtain ⟨ver2, ks2, hk2⟩ : ∃ v2 k2, t'.key = .derived t'.entity v2 k2 := by
        simpa [InstWF, hargs'] using hw'
      rw [hk1, hk2]
      intro hcon
      injection hcon with h1 _ _
      exact hne h1

theorem filter_length_one {α : Type} (p : α → Bool) :
    ∀ (l : List α), (l.filter p).length = 1 →
    ∃ l1 a l2, l = l1 ++ a :: l2 ∧ p a = true ∧
      (∀ x ∈ l1, p x = false) ∧ (∀ x ∈ l2, p x = false) := by
  intro l
  induction l with
  | nil => intro h; simp at h
  | cons x rest ih =>
    intro h
    by_cases hx : p x = true
    · rw [List.filter_cons_of_pos hx] at h
      simp only [List.length_cons] at h
      have h0 : (rest.filter p).length = 0 := by omega
      have hrest : ∀ y ∈ rest, p y = false := by
        have hnil : rest.filter p = [] := List.length_eq_zero.mp h0
        intro y hy
        by_cases hpy : p y = true
        · exfalso
          have : y ∈ rest.filter p := List.mem_filter.mpr ⟨hy, hpy⟩
          rw [hnil] at this
          cases this
        · simpa using hpy
      exact ⟨[], x, rest, by simp, hx, by simp, hrest⟩
    · rw [List.filter_cons_of_neg hx] at h
      obtain ⟨l1, a, l2, hl, hpa, h1, h2⟩ := ih h
      exact ⟨x :: l1, a, l2, by simp [hl], hpa,
        fun y hy => by
          rcases List.mem_cons.mp hy with hy | hy
          · subst hy; simpa using hx
          · exact h1 y hy, h2⟩

/-- Starting from an empty cache, a successful evaluation of a task list
containing exactly one Instance of entity E (derived, with the Instances
of every other entity keyed differently) invokes E's producing function
exactly once. -/
theorem exec_calls_exact {reg : List Entity} {E : String}
    {pre : List Inst} {tE : Inst} {post : List Inst} {s : EState}
    (hent : tE.entity = E)
    (hnf : tE.fixedB = false)
    (hpre : ∀ t ∈ pre, (t.entity == E) = false)
    (hpost : ∀ t ∈ post, (t.entity == E) = false)
    (hwf : ∀ t ∈ pre ++ tE :: post, InstWF t)
    (hmem : s.cache.mem = [])
    (hdisk : s.cache.disk = [])
    (hcalls : callsOf s.calls E = 0)
    (hsucc : (execInsts reg s (pre ++ tE :: post)).2 = none) :
    callsOf (execInsts reg s (pre ++ tE :: post)).1.calls E = 1 := by
  cases hpre_run : execInsts reg s pre with
  | mk s1 r1 =>
    cases r1 with
    | some e =>
      rw [execInsts_append_err _ hpre_run] at hsucc
      cases hsucc
    | none =>
      rw [execInsts_append_ok _ hpre_run] at hsucc ⊢
      have hc1le := @callsOf_execInsts_le reg E pre s
      rw [hpre_run] at hc1le
      simp only at hc1le
      have hfilter0 : (pre.filter (fun t => t.entity == E)).length = 0 := by
        rw [List.length_eq_zero, List.filter_eq_nil_iff]
        intro t ht
        simp [hpre t ht]
      have hc1 : callsOf s1.calls E = 0 := by omega
      have hwtE : InstWF tE := hwf tE (by simp)
      have hother : ∀ t' ∈ pre, tE.key ≠ t'.key := by
        intro t' ht'
        have hwt' := hwf t' (List.mem_append_left _ ht')
        have hne : tE.entity ≠ t'.entity := by
          intro hcon
          have hb := hpre t' ht'
          rw [← hcon, hent] at hb
          simp at hb
        exact InstWF_ne_key hwtE hwt' hne hnf
      have hkeymem : alookup s1.cache.mem tE.key = none := by
        cases hlk : alookup s1.cache.mem tE.key with
        | none => rfl
        | some v =>
          exfalso
          have hsome : (alookup s1.cache.mem tE.key).isSome := by rw [hlk]; rfl
          have hck := (@execInsts_cache_keys reg pre s tE.key).1
          rw [hpre_run] at hck
          simp only at hck
          rcases hck hsome with h1 | h1
          · rw [hmem] at h1
            simp [alookup] at h1
          · obtain ⟨t', ht', hkey'⟩ := List.mem_map.mp h1
            exact (hother t' ht') hkey'.symm
      have hkeydisk : alookup s1.cache.disk tE.key = none := by
        cases hlk : alookup s1.cache.disk tE.key with
        | none => rfl
        | some v =>
          exfalso
          have hsome : (alookup s1.cache.disk tE.key).isSome := by rw [hlk]; rfl
          have hck := (@execInsts_cache_keys reg pre s tE.key).2
          rw [hpre_run] at hck
          simp only at hck
          rcases hck hsome with h1 | h1
          · rw [hdisk] at h1
            simp [alookup] at h1
          · obtain ⟨t', ht', hkey'⟩ := List.mem_map.mp h1
            exact (hother t' ht') hkey'.symm
      cases hstepE : execInst reg s1 tE with
      | mk s2 r2 =>
        cases r2 with
        | some e =>
          rw [execInsts_cons_err hstepE] at hsucc
          cases hsucc
        | none =>
          rw [execInsts_cons_ok hstepE] at hsucc ⊢
          have hbump := @execInst_miss_calls reg s1 tE hnf hkeymem hkeydisk
            (by rw [hstepE])
          rw [hstepE] at hbump
          simp only at hbump
          have hc2 : callsOf s2.calls E = 1 := by
            rw [hbump, hent, callsOf_bump_self, hc1]
          have hle := @callsOf_execInsts_le reg E post s2
          have hmono := @callsOf_execInsts_mono reg E post s2
          have hfilterpost : (post.filter (fun t => t.entity == E)).length = 0 := by
            rw [List.length_eq_zero, List.filter_eq_nil_iff]
            intro t ht
            simp [hpost t ht]
          omega

/-! ### Evaluator result assembly -/

theorem lookupReg_name {reg : List Entity} {n : String} {e : Entity}
    (h : lookupReg reg n = some e) : e.name = n := by
  have := List.find?_some h
  simpa using this

theorem mapLookup_length {κ α : Type} [DecidableEq κ] :
    ∀ {ks : List κ} {l : List (κ × α)} {vs : List α},
    mapLookup l ks = some vs → vs.length = ks.length := by
  intro ks
  induction ks with
  | nil => intro l vs h; simp [mapLookup] at h; simp [← h]
  | cons k ks ih =>
    intro l vs h
    simp only [mapLookup] at h
    cases h1 : alookup l k with
    | none => rw [h1] at h; cases h
    | some v =>
      rw [h1] at h
      cases h2 : mapLookup l ks with
      | none => rw [h2] at h; cases h
      | some vs2 =>
        rw [h2] at h
        cases h
        simp [ih h2]

theorem getRun_ok_elim {f : Flow} {c : Cache} {n : String}
    {cont : Option Container} {v : Val}
    (h : (Flow.getRun f c n cont).1 = .ok v) :
    (lookupReg f.reg n).isSome ∧
    (execInsts f.reg { cache := c, env := [], calls := [] } (tasksOf f n)).2 = none := by
  unfold Flow.getRun at h
  cases hreg : lookupReg f.reg n with
  | none => rw [hreg] at h; cases h
  | some e =>
    rw [hreg] at h
    refine ⟨by simp [hreg], ?_⟩
    cases hrun : execInsts f.reg { cache := c, env := [], calls := [] } (tasksOf f n) with
    | mk s r =>
      cases r with
      | none => rfl
      | some err => rw [hrun] at h; cases h

theorem instKeys_present {f : Flow} {c : Cache} {n : String}
    (hsucc : (execInsts f.reg { cache := c, env := [], calls := [] } (tasksOf f n)).2 = none) :
    ∀ k ∈ instKeys f n,
      (alookup (execInsts f.reg { cache := c, env := [], calls := [] } (tasksOf f n)).1.env k).isSome := by
  intro k hk
  obtain ⟨t, ht, hkey⟩ := List.mem_map.mp hk
  rw [← hkey]
  exact exec_env_present (tasksOf f n) _ hsucc t (instsOf_sub_tasksOf f n t ht)

theorem getRun_list_ok {f : Flow} {c : Cache} {n : String}
    (hreg : (lookupReg f.reg n).isSome)
    (hsucc : (execInsts f.reg { cache := c, env := [], calls := [] } (tasksOf f n)).2 = none) :
    ∃ vs, mapLookup
        (execInsts f.reg { cache := c, env := [], calls := [] } (tasksOf f n)).1.env
        (instKeys f n) = some vs ∧
      Flow.getRun f c n (some .list) =
        (.ok (.list vs),
         (execInsts f.reg { cache := c, env := [], calls := [] } (tasksOf f n)).1.cache,
         (execInsts f.reg { cache := c, env := [], calls := [] } (tasksOf f n)).1.calls) := by
  obtain ⟨vs, hvs⟩ := mapLookup_isSome (instKeys_present hsucc)
  refine ⟨vs, hvs, ?_⟩
  unfold Flow.getRun
  cases hr : lookupReg f.reg n with
  | none => rw [hr] at hreg; cases hreg
  | some e =>
    cases hrun : execInsts f.reg { cache := c, env := [], calls := [] } (tasksOf f n) with
    | mk s r =>
      rw [hrun] at hsucc hvs
      simp only at hsucc hvs
      subst hsucc
      simp [hvs]

theorem getRun_single_ok {f : Flow} {c : Cache} {n : String}
    (hreg : (lookupReg f.reg n).isSome)
    (hsucc : (execInsts f.reg { cache := c, env := [], calls := [] } (tasksOf f n)).2 = none)
    (hmult : multOf f n = 1) :
    ∃ t v, instsOf f n = [t] ∧
      alookup (execInsts f.reg { cache := c, env := [], calls := [] } (tasksOf f n)).1.env
        t.key = some v ∧
      Flow.getRun f c n none =
        (.ok v,
         (execInsts f.reg { cache := c, env := [], calls := [] } (tasksOf f n)).1.cache,
         (execInsts f.reg { cache := c, env := [], calls := [] } (tasksOf f n)).1.calls) := by
  obtain ⟨t, ht⟩ := List.length_eq_one.mp hmult
  have hkeys : instKeys f n = [t.key] := by
    unfold instKeys
    rw [ht]
    rfl
  have hpres := instKeys_present (f := f) (c := c) (n := n) hsucc t.key
    (by rw [hkeys]; simp)
  obtain ⟨v, hv⟩ := Option.isSome_iff_exists.mp hpres
  refine ⟨t, v, ht, hv, ?_⟩
  unfold Flow.getRun
  cases hr : lookupReg f.reg n with
  | none => rw [hr] at hreg; cases hreg
  | some e =>
    cases hrun : execInsts f.reg { cache := c, env := [], calls := [] } (tasksOf f n) with
    | mk s r =>
      rw [hrun] at hsucc hv
      simp only at hsucc hv
      subst hsucc
      simp [hkeys, hv]

theorem getRun_multi {f : Flow} {c : Cache} {n : String}
    (hreg : (lookupReg f.reg n).isSome)
    (hsucc : (execInsts f.reg { cache := c, env := [], calls := [] } (tasksOf f n)).2 = none)
    (hmult : 1 < multOf f n) :
    Flow.getRun f c n none =
      (.error (.MultipleValuesError n (multOf f n)),
       (execInsts f.reg { cache := c, env := [], calls := [] } (tasksOf f n)).1.cache,
       (execInsts f.reg { cache := c, env := [], calls := [] } (tasksOf f n)).1.calls) := by
  have hkeys : ∃ k1 k2 rest, instKeys f n = k1 :: k2 :: rest := by
    have hlen : 1 < (instKeys f n).length := by
      unfold instKeys
      rw [List.length_map]
      exact hmult
    cases hks : instKeys f n with
    | nil => rw [hks] at hlen; simp at hlen
    | cons k1 ks1 =>
      cases hks1 : ks1 with
      | nil => rw [hks, hks1] at hlen; simp at hlen
      | cons k2 rest => exact ⟨k1, k2, rest, by simp [hks, hks1]⟩
  obtain ⟨k1, k2, rest, hkeys⟩ := hkeys
  unfold Flow.getRun
  cases hr : lookupReg f.reg n with
  | none => rw [hr] at hreg; cases hreg
  | some e =>
    cases hrun : execInsts f.reg { cache := c, env := [], calls := [] } (tasksOf f n) with
    | mk s r =>
      rw [hrun] at hsucc
      simp only at hsucc
      subst hsucc
      simp [hkeys]

theorem getRun_zero {f : Flow} {c : Cache} {n : String}
    (hreg : (lookupReg f.reg n).isSome)
    (hsucc : (execInsts f.reg { cache := c, env := [], calls := [] } (tasksOf f n)).2 = none)
    (hmult : multOf f n = 0) :
    (Flow.getRun f c n none).1 = .error .internalError := by
  have hkeys : instKeys f n = [] := by
    unfold instKeys
    rw [List.length_eq_zero.mp hmult]
    rfl
  unfold Flow.getRun
  cases hr : lookupReg f.reg n with
  | none => rw [hr] at hreg; cases hreg
  | some e =>
    cases hrun : execInsts f.reg { cache := c, env := [], calls := [] } (tasksOf f n) with
    | mk s r =>
      rw [hrun] at hsucc
      simp only at hsucc
      subst hsucc
      simp [hkeys]

/-! ### A fixed Instance's environment value is its assigned value -/

theorem exec_env_fixedKey {reg : List Entity} :
    ∀ (ts : List Inst) (s : EState),
    (∀ t ∈ ts, InstWF t) →
    (∀ (n : String) (v w : Val), alookup s.env (.fixedKey n v) = some w → w = v) →
    ∀ (n : String) (v w : Val),
      alookup (execInsts reg s ts).1.env (.fixedKey n v) = some w → w = v := by
  intro ts
  induction ts with
  | nil => intro s _ h0 n v w h; exact h0 n v w h
  | cons t ts ih =>
    intro s hwf h0 n v w h
    cases hstep : execInst reg s t with
    | mk s1 r =>
      have hs1 : ∀ (n : String) (v w : Val),
          alookup s1.env (.fixedKey n v) = some w → w = v := by
        cases r with
        | some e =>
          rw [execInst_err_state hstep]
          exact h0
        | none =>
          cases hargs : t.args with
          | fixedArg v0 =>
            have hkey : t.key = .fixedKey t.entity v0 := by
              simpa [InstWF, hargs] using hwf t (List.mem_cons_self t ts)
            have hrun : execInst reg s t = ({ s with env := ainsert s.env t.key v0 }, none) := by
              simp [execInst, hargs]
            have hs1eq : s1 = { s with env := ainsert s.env t.key v0 } := by
              rw [hrun] at hstep
              exact ((Prod.mk.injEq _ _ _ _).mp hstep).1.symm
            intro n1 v1 w1 h1
            rw [hs1eq] at h1
            simp only [alookup_ainsert] at h1
            by_cases hk : t.key = CaseKey.fixedKey n1 v1
            · rw [if_pos hk] at h1
              rw [hkey] at hk
              injection hk with _ h2
              rw [← h2, ← Option.some.inj h1]
            · rw [if_neg hk] at h1
              exact h0 n1 v1 w1 h1
          | positional ks =>
            obtain ⟨ver1, kl1, hkey⟩ : ∃ v2 k2, t.key = .derived t.entity v2 k2 := by
              simpa [InstWF, hargs] using hwf t (List.mem_cons_self t ts)
            obtain ⟨w', hw'⟩ := @execInst_env_insert reg s t (by rw [hstep])
            rw [hstep] at hw'
            simp only at hw'
            intro n1 v1 w1 h1
            rw [hw'] at h1
            simp only [alookup_ainsert] at h1
            have hk : t.key ≠ CaseKey.fixedKey n1 v1 := by
              rw [hkey]
              intro hcon
              cases hcon
            rw [if_neg hk] at h1
            exact h0 n1 v1 w1 h1
          | gathered ks =>
            obtain ⟨ver1, kl1, hkey⟩ : ∃ v2 k2, t.key = .derived t.entity v2 k2 := by
              simpa [InstWF, hargs] using hwf t (List.mem_cons_self t ts)
            obtain ⟨w', hw'⟩ := @execInst_env_insert reg s t (by rw [hstep])
            rw [hstep] at hw'
            simp only at hw'
            intro n1 v1 w1 h1
            rw [hw'] at h1
            simp only [alookup_ainsert] at h1
            have hk : t.key ≠ CaseKey.fixedKey n1 v1 := by
              rw [hkey]
              intro hcon
              cases hcon
            rw [if_neg hk] at h1
            exact h0 n1 v1 w1 h1
      cases r with
      | some e =>
        rw [execInsts_cons_err hstep] at h
        exact hs1 n v w h
      | none =>
        rw [execInsts_cons_ok hstep] at h
        exact ih s1 (fun t' ht' => hwf t' (List.mem_cons_of_mem t ht')) hs1 n v w h

theorem mapLookup_fixed_vals {env : List (CaseKey × Val)} {E : String}
    (hfix : ∀ (n : String) (v w : Val), alookup env (.fixedKey n v) = some w → w = v) :
    ∀ (vl : List Val), (∀ v ∈ vl, (alookup env (.fixedKey E v)).isSome) →
    mapLookup env (vl.map (fun v => CaseKey.fixedKey E v)) = some vl := by
  intro vl
  induction vl with
  | nil => intro _; rfl
  | cons v rest ih =>
    intro h
    obtain ⟨w, hw⟩ := Option.isSome_iff_exists.mp (h v (List.mem_cons_self v rest))
    have hwv : w = v := hfix E v w hw
    subst hwv
    have hrest := ih (fun v' hv' => h v' (List.mem_cons_of_mem _ hv'))
    simp only [List.map_cons, mapLookup, hw, hrest]

theorem instsFor_fixed_keys {tbl : List (String × List Inst)}
    {asn : List (String × List Val)} {e : Entity} {vs : List Val}
    (h : alookup asn e.name = some vs) :
    (instsFor tbl asn e).map Inst.key
      = vs.map (fun v => CaseKey.fixedKey e.name v) := by
  unfold instsFor
  rw [h]
  rw [List.map_map]
  have h1 : (Inst.key ∘ fun p : Nat × Val =>
      ({ entity := e.name, key := .fixedKey e.name p.2,
         dims := [(e.name, p.1)], args := .fixedArg p.2 } : Inst))
      = fun p : Nat × Val => CaseKey.fixedKey e.name p.2 := rfl
  rw [h1]
  have h2 : (fun p : Nat × Val => CaseKey.fixedKey e.name p.2)
      = (fun v : Val => CaseKey.fixedKey e.name v) ∘ Prod.snd := rfl
  rw [h2, ← List.map_map, List.enum_map_snd]

theorem multOf_fixed {f : Flow} {E : String} {e : Entity} {vs : List Val}
    (hwf : wfReg f.reg = true) (hreg : lookupReg f.reg E = some e)
    (ha : alookup f.asn E = some vs) : multOf f E = vs.length := by
  obtain ⟨tbl0, hEntry, _⟩ := table_entry f.asn hwf hreg
  have hname : e.name = E := lookupReg_name hreg
  unfold multOf instsOf
  rw [hEntry]
  simp only [Option.getD_some]
  unfold instsFor
  rw [hname, ha]
  simp

theorem instsFor_nonfixed {tbl : List (String × List Inst)}
    {asn : List (String × List Val)} {e : Entity}
    (h : alookup asn e.name = none) :
    ∀ t ∈ instsFor tbl asn e, t.fixedB = false := by
  intro t ht
  unfold instsFor at ht
  rw [h] at ht
  cases hrole : e.role with
  | ordinary =>
    rw [hrole] at ht
    obtain ⟨combo, _, hp⟩ := List.mem_map.mp ht
    rw [← hp]
    rfl
  | gatherTarget gs =>
    rw [hrole] at ht
    obtain ⟨combo, _, hp⟩ := List.mem_map.mp ht
    rw [← hp]
    rfl

theorem tasksOf_entity_nonfixed {f : Flow} {E target : String}
    (hnfix : alookup f.asn E = none) :
    ∀ t ∈ tasksOf f target, t.entity = E → t.fixedB = false := by
  intro t ht hent
  unfold tasksOf at ht
  obtain ⟨p, hp, hmem⟩ := List.mem_flatMap.mp ht
  by_cases hnd : (neededOf f.reg target).contains p.1
  · rw [if_pos hnd] at hmem
    have hblock : ∀ (tbl : List (String × List Inst)) (e : Entity),
        (∀ t' ∈ instsFor tbl f.asn e, t'.entity = E → t'.fixedB = false) := by
      intro tbl e t' ht' hent'
      have hname : e.name = E := by rw [← instsFor_entity t' ht', hent']
      exact instsFor_nonfixed (by rw [hname]; exact hnfix) t' ht'
    have := buildTableAux_blocks
      (fun q => ∀ t' ∈ q.2, t'.entity = E → t'.fixedB = false)
      (fun tbl e => hblock tbl e) f.reg [] (fun q hq => by cases hq) p hp
    exact this t hmem hent
  · rw [if_neg hnd] at hmem
    cases hmem

theorem getRun_none_ok_mult {f : Flow} {c : Cache} {E : String} {v : Val}
    (hok : (Flow.getRun f c E none).1 = .ok v) : multOf f E = 1 := by
  obtain ⟨hreg, hsucc⟩ := getRun_ok_elim hok
  rcases Nat.lt_trichotomy (multOf f E) 1 with h | h | h
  · have h0 : multOf f E = 0 := by omega
    rw [getRun_zero hreg hsucc h0] at hok
    cases hok
  · exact h
  · rw [getRun_multi hreg hsucc h] at hok
    cases hok

/-- A second evaluation whose environment agrees on the target's Instance
keys returns the same value. -/
theorem getRun_rerun_value {f : Flow} {c c2 : Cache} {E : String}
    {cont : Option Container} {v : Val}
    (hok : (Flow.getRun f c E cont).1 = .ok v)
    (h2succ : (execInsts f.reg { cache := c2, env := [], calls := [] } (tasksOf f E)).2 = none)
    (henv : ∀ k ∈ instKeys f E,
      alookup (execInsts f.reg { cache := c2, env := [], calls := [] } (tasksOf f E)).1.env k
        = alookup (execInsts f.reg { cache := c, env := [], calls := [] } (tasksOf f E)).1.env k) :
    (Flow.getRun f c2 E cont).1 = .ok v := by
  obtain ⟨hreg, hsucc⟩ := getRun_ok_elim hok
  cases cont with
  | some cc =>
    cases cc
    obtain ⟨vs1, hvs1, hrun1⟩ := getRun_list_ok hreg hsucc
    obtain ⟨vs2, hvs2, hrun2⟩ := getRun_list_ok hreg h2succ
    have hv : v = .list vs1 := by
      rw [hrun1] at hok
      exact (Except.ok.inj hok).symm
    have heq : vs2 = vs1 := by
      rw [mapLookup_congr henv] at hvs2
      rw [hvs1] at hvs2
      exact (Option.some.inj hvs2).symm
    rw [hrun2]
    simp [heq, hv]
  | none =>
    have hmult : multOf f E = 1 := getRun_none_ok_mult hok
    obtain ⟨t1, v1, ht1, hv1, hrun1⟩ := getRun_single_ok hreg hsucc hmult
    obtain ⟨t2, v2, ht2, hv2, hrun2⟩ := getRun_single_ok hreg h2succ hmult
    have htt : t2 = t1 := by
      rw [ht1] at ht2
      exact (List.cons.inj ht2).1.symm
    have hkmem : t1.key ∈ instKeys f E := by
      unfold instKeys
      rw [ht1]
      simp
    have hvv : v2 = v1 := by
      rw [htt] at hv2
      rw [henv t1.key hkmem, hv1] at hv2
      exact (Option.some.inj hv2).symm
    have hv : v = v1 := by
      rw [hrun1] at hok
      exact (Except.ok.inj hok).symm
    rw [hrun2, hvv, hv]

theorem CacheWF_empty : CacheWF emptyCache := by
  intro k v h
  simp [emptyCache, alookup] at h

/-- For a registered entity, `getRun` always reports the evaluation's
final Cache Store and invocation counters. -/
theorem getRun_state {f : Flow} {c : Cache} {n : String} {cont : Option Container}
    (hreg : (lookupReg f.reg n).isSome) :
    (Flow.getRun f c n cont).2
      = ((execInsts f.reg { cache := c, env := [], calls := [] } (tasksOf f n)).1.cache,
         (execInsts f.reg { cache := c, env := [], calls := [] } (tasksOf f n)).1.calls) := by
  unfold Flow.getRun
  cases hr : lookupReg f.reg n with
  | none => rw [hr] at hreg; cases hreg
  | some e =>
    cases hrun : execInsts f.reg { cache := c, env := [], calls := [] } (tasksOf f n) with
    | mk s r =>
      cases r with
      | some err => simp
      | none =>
        cases cont with
        | none =>
          cases hks : instKeys f n with
          | nil => simp
          | cons k1 rest =>
            cases rest with
            | nil => cases halk : alookup s.env k1 <;> simp [halk]
            | cons k2 rest2 => simp
        | some cc =>
          cases cc
          cases hml : mapLookup s.env (instKeys f n) <;> simp [hml]

/-- Core warm re-run result: after a successful `get`, re-running against
either the full resulting Cache Store or just its persistent tier
reproduces the value, invokes no producing function at all, and writes
nothing further to the persistent tier. -/
theorem warm_rerun_core (f : Flow) (c : Cache) (E : String)
    (cont : Option Container) (v : Val) (c2 : Cache)
    (hcw : CacheWF c)
    (hok : (Flow.getRun f c E cont).1 = .ok v)
    (hc2 : c2 = (execInsts f.reg { cache := c, env := [], calls := [] } (tasksOf f E)).1.cache ∨
           c2 = { mem := [],
                  disk := (execInsts f.reg { cache := c, env := [], calls := [] }
                    (tasksOf f E)).1.cache.disk }) :
    (Flow.getRun f c2 E cont).1 = .ok v ∧
    (∀ n, callsOf (Flow.getRun f c2 E cont).2.2 n = 0) ∧
    (Flow.getRun f c2 E cont).2.1.disk = c2.disk := by
  obtain ⟨hreg, hsucc⟩ := getRun_ok_elim hok
  obtain ⟨_, hpost, _⟩ := exec_post (tasksOf f E)
    { cache := c, env := [], calls := [] } (fun t ht => tasksOf_WF t ht) hcw hsucc
  have href : ∀ t ∈ tasksOf f E,
      RefOK (execInsts f.reg { cache := c, env := [], calls := [] } (tasksOf f E)).1.env
        c2 t := by
    intro t ht
    rcases hc2 with h | h
    · rw [h]
      exact PostOK_RefOK_self (hpost t ht)
    · rw [h]
      exact PostOK_RefOK_disk (hpost t ht)
  obtain ⟨h2succ, h2calls, h2disk, h2env⟩ := exec_warm (tasksOf f E)
    { cache := c2, env := [], calls := [] } href
  have henv : ∀ k ∈ instKeys f E,
      alookup (execInsts f.reg { cache := c2, env := [], calls := [] } (tasksOf f E)).1.env k
        = alookup (execInsts f.reg { cache := c, env := [], calls := [] } (tasksOf f E)).1.env k := by
    intro k hk
    obtain ⟨t, ht, hkey⟩ := List.mem_map.mp hk
    have hmem : k ∈ (tasksOf f E).map Inst.key := by
      refine List.mem_map.mpr ⟨t, instsOf_sub_tasksOf f E t ht, hkey⟩
    rw [h2env k, if_pos hmem]
  refine ⟨getRun_rerun_value hok h2succ henv, ?_, ?_⟩
  · intro n
    rw [(Prod.ext_iff.mp (getRun_state hreg)).2]
    rw [h2calls]
    rfl
  · rw [(Prod.ext_iff.mp (getRun_state hreg)).1]
    exact h2disk

/-- Core cold-run call count: a successful `get` from the fully empty
cache of a multiplicity-1 derived entity invokes its producing function
exactly once. -/
theorem cold_calls_one (f : Flow) (E : String) (cont : Option Container) (v : Val)
    (hok : (Flow.getRun f emptyCache E cont).1 = .ok v)
    (hmult : multOf f E = 1) (hnfix : alookup f.asn E = none)
    (hwf : wfReg f.reg = true) :
    callsOf (Flow.getRun f emptyCache E cont).2.2 E = 1 := by
  obtain ⟨hreg, hsucc⟩ := getRun_ok_elim hok
  have hcount : ((tasksOf f E).filter (fun t => t.entity == E)).length = 1 := by
    rw [tasksOf_filter_self f E hwf, hmult]
  obtain ⟨pre, tE, post, hdecomp, hptE, hpre, hpost⟩ :=
    filter_length_one _ (tasksOf f E) hcount
  have htEent : tE.entity = E := by simpa using hptE
  have htEnf : tE.fixedB = false :=
    tasksOf_entity_nonfixed hnfix tE (by rw [hdecomp]; simp) htEent
  have hwfts : ∀ t ∈ pre ++ tE :: post, InstWF t := by
    intro t ht
    exact tasksOf_WF t (by rw [hdecomp]; exact ht)
  rw [hdecomp] at hsucc
  have hone := @exec_calls_exact f.reg E pre tE post
    { cache := emptyCache, env := [], calls := [] }
    htEent htEnf hpre hpost hwfts rfl rfl rfl hsucc
  rw [(Prod.ext_iff.mp (getRun_state hreg)).2, hdecomp]
  exact hone

/-! ### The needed set is closed under dependencies, and resolution of
the needed entities depends only on the assignments of needed entities -/

theorem neededAux_adds_only : ∀ (l : List Entity) (acc : List String) (x : String),
    x ∈ neededAux l acc → x ∈ acc ∨ ∃ e ∈ l, x ∈ mentionsOf e := by
  intro l
  induction l with
  | nil => intro acc x h; exact Or.inl h
  | cons f rest ih =>
    intro acc x h
    rw [neededAux] at h
    by_cases hc : acc.contains f.name
    · rw [if_pos hc] at h
      rcases ih _ x h with h1 | h1
      · rcases List.mem_append.mp h1 with h2 | h2
        · rcases List.mem_append.mp h2 with h3 | h3
          · exact Or.inl h3
          · exact Or.inr ⟨f, List.mem_cons_self f rest,
              List.mem_append_left _ h3⟩
        · exact Or.inr ⟨f, List.mem_cons_self f rest,
            List.mem_append_right _ h2⟩
      · obtain ⟨e, he, hm⟩ := h1
        exact Or.inr ⟨e, List.mem_cons_of_mem _ he, hm⟩
    · rw [if_neg hc] at h
      rcases ih _ x h with h1 | h1
      · exact Or.inl h1
      · obtain ⟨e, he, hm⟩ := h1
        exact Or.inr ⟨e, List.mem_cons_of_mem _ he, hm⟩

theorem neededAux_closed : ∀ (l : List Entity) (acc : List String),
    l.Pairwise (fun a b => a.name ∉ mentionsOf b) →
    ∀ e ∈ l, e.name ∈ neededAux l acc → ∀ d ∈ mentionsOf e, d ∈ neededAux l acc := by
  intro l
  induction l with
  | nil => intro acc _ e he; cases he
  | cons f rest ih =>
    intro acc hpw e he hmem d hd
    obtain ⟨hhead, htail⟩ := List.pairwise_cons.mp hpw
    rw [neededAux] at hmem ⊢
    by_cases hc : acc.contains f.name
    · rw [if_pos hc] at hmem ⊢
      rcases List.mem_cons.mp he with he1 | he1
      · subst he1
        refine neededAux_sub rest _ ?_
        rcases List.mem_append.mp hd with h1 | h1
        · exact List.mem_append_left _ (List.mem_append_right _ h1)
        · exact List.mem_append_right _ h1
      · exact ih _ htail e he1 hmem d hd
    · rw [if_neg hc] at hmem ⊢
      rcases List.mem_cons.mp he with he1 | he1
      · subst he1
        exfalso
        rcases neededAux_adds_only rest acc _ hmem with h1 | h1
        · have hc2 : acc.contains e.name = true := by simpa using h1
          exact hc hc2
        · obtain ⟨e', he', hm'⟩ := h1
          exact hhead e' he' hm'
      · exact ih _ htail e he1 hmem d hd

theorem wfA_pairwise : ∀ (l : List Entity) (seen : List String),
    wfA l seen = true →
    l.Pairwise (fun a b => b.name ∉ mentionsOf a) := by
  intro l
  induction l with
  | nil => intro seen _; exact List.Pairwise.nil
  | cons e rest ih =>
    intro seen h
    rw [wfA] at h
    simp only [Bool.and_eq_true] at h
    obtain ⟨⟨⟨_, hdeps⟩, hrole⟩, hrest⟩ := h
    refine List.Pairwise.cons ?_ (ih _ hrest)
    intro b hb hmem
    have hbnot : b.name ∉ (e.name :: seen) :=
      (wfA_names_nodup rest _ hrest).1 b.name (List.mem_map_of_mem Entity.name hb)
    have hbseen : b.name ∈ seen := by
      rcases List.mem_append.mp hmem with h1 | h1
      · have := List.all_eq_true.mp hdeps b.name h1
        simpa using this
      · cases hrolee : e.role with
        | ordinary => rw [gatherExtra, hrolee] at h1; cases h1
        | gatherTarget gs =>
          rw [gatherExtra, hrolee] at h1
          have hbgs : b.name = gs.also := List.mem_singleton.mp h1
          rw [okRole, hrolee] at hrole
          simp only [Bool.and_eq_true] at hrole
          rw [hbgs]
          simpa using hrole.1
    exact hbnot (List.mem_cons_of_mem _ hbseen)

/-- Under a well-formed registry the needed set of a target is closed
under dependencies (and gather payloads). -/
theorem neededOf_closed (reg : List Entity) (E : String)
    (hwf : wfReg reg = true) :
    ∀ e ∈ reg, e.name ∈ neededOf reg E → ∀ d ∈ mentionsOf e, d ∈ neededOf reg E := by
  intro e he hmem d hd
  have hpw : reg.reverse.Pairwise (fun a b => a.name ∉ mentionsOf b) := by
    rw [List.pairwise_reverse]
    exact wfA_pairwise reg [] hwf
  exact neededAux_closed reg.reverse [E] hpw e (List.mem_reverse.mpr he) hmem d hd

theorem forall2_append_single {α β : Type} {R : α → β → Prop} :
    ∀ {l1 : List α} {l2 : List β}, List.Forall₂ R l1 l2 →
    ∀ {p : α} {q : β}, R p q → List.Forall₂ R (l1 ++ [p]) (l2 ++ [q]) := by
  intro l1 l2 h
  induction h with
  | nil => intro p q hpq; exact List.Forall₂.cons hpq List.Forall₂.nil
  | cons h1 _ ih => intro p q hpq; exact List.Forall₂.cons h1 (ih hpq)

theorem forall2_rel_alookup {nd : List String} :
    ∀ (t1 t2 : List (String × List Inst)),
    List.Forall₂ (fun p q => p.1 = q.1 ∧ (p.1 ∈ nd → p.2 = q.2)) t1 t2 →
    ∀ n ∈ nd, alookup t1 n = alookup t2 n := by
  intro t1
  induction t1 with
  | nil => intro t2 h n _; rw [List.forall₂_nil_left_iff.mp h]
  | cons p rest ih =>
    intro t2 h n hn
    obtain ⟨q, t2', hpq, hrest, ht2⟩ := List.forall₂_cons_left_iff.mp h
    subst ht2
    obtain ⟨k1, v1⟩ := p
    obtain ⟨k2, v2⟩ := q
    obtain ⟨hname, hval⟩ := hpq
    simp only at hname hval
    subst hname
    by_cases hk : k1 = n
    · subst hk
      simp [alookup, hval hn]
    · simp [alookup, hk, ih t2' hrest n hn]

theorem forall2_rel_flatMap {nd : List String} :
    ∀ (t1 t2 : List (String × List Inst)),
    List.Forall₂ (fun p q => p.1 = q.1 ∧ (p.1 ∈ nd → p.2 = q.2)) t1 t2 →
    t1.flatMap (fun p => if nd.contains p.1 then p.2 else [])
      = t2.flatMap (fun p => if nd.contains p.1 then p.2 else []) := by
  intro t1
  induction t1 with
  | nil => intro t2 h; rw [List.forall₂_nil_left_iff.mp h]
  | cons p rest ih =>
    intro t2 h
    obtain ⟨q, t2', hpq, hrest, ht2⟩ := List.forall₂_cons_left_iff.mp h
    subst ht2
    obtain ⟨k1, v1⟩ := p
    obtain ⟨k2, v2⟩ := q
    obtain ⟨hname, hval⟩ := hpq
    simp only at hname hval
    subst hname
    rw [List.flatMap_cons, List.flatMap_cons, ih t2' hrest]
    by_cases hk : nd.contains k1
    · have hv : v1 = v2 := hval (by simpa using hk)
      rw [hv]
    · rw [if_neg hk, if_neg hk]

theorem instsFor_agree {a1 a2 : List (String × List Val)}
    {tbl1 tbl2 : List (String × List Inst)} {e : Entity}
    (ha : alookup a1 e.name = alookup a2 e.name)
    (hd : ∀ d ∈ mentionsOf e, alookup tbl1 d = alookup tbl2 d) :
    instsFor tbl1 a1 e = instsFor tbl2 a2 e := by
  unfold instsFor
  rw [ha]
  cases hv : alookup a2 e.name with
  | some vs => rfl
  | none =>
    cases hrole : e.role with
    | ordinary =>
      have hmap : e.deps.map (fun d => (alookup tbl1 d).getD [])
          = e.deps.map (fun d => (alookup tbl2 d).getD []) := by
        refine List.map_congr_left ?_
        intro d hdm
        rw [hd d (List.mem_append_left _ hdm)]
      simp only [hmap]
    | gatherTarget gs =>
      have halso : alookup tbl1 gs.also = alookup tbl2 gs.also := by
        refine hd gs.also (List.mem_append_right _ ?_)
        simp [gatherExtra, hrole]
      have hmap : (e.deps.filter (fun d => !(gs.over.contains d))).map
            (fun d => (alookup tbl1 d).getD [])
          = (e.deps.filter (fun d => !(gs.over.contains d))).map
            (fun d => (alookup tbl2 d).getD []) := by
        refine List.map_congr_left ?_
        intro d hdm
        rw [hd d (List.mem_append_left _ (List.mem_filter.mp hdm).1)]
      simp only [halso, hmap]

theorem buildTableAux_needed {a1 a2 : List (String × List Val)} {nd : List String}
    (hag : ∀ n ∈ nd, alookup a1 n = alookup a2 n) :
    ∀ (rest : List Entity) (tbl1 tbl2 : List (String × List Inst)),
    (∀ e ∈ rest, e.name ∈ nd → ∀ d ∈ mentionsOf e, d ∈ nd) →
    List.Forall₂ (fun p q => p.1 = q.1 ∧ (p.1 ∈ nd → p.2 = q.2)) tbl1 tbl2 →
    List.Forall₂ (fun p q => p.1 = q.1 ∧ (p.1 ∈ nd → p.2 = q.2))
      (buildTableAux a1 rest tbl1) (buildTableAux a2 rest tbl2) := by
  intro rest
  induction rest with
  | nil => intro tbl1 tbl2 _ h; exact h
  | cons e rest ih =>
    intro tbl1 tbl2 hcl h
    refine ih _ _ (fun e' he' => hcl e' (List.mem_cons_of_mem _ he')) ?_
    refine forall2_append_single h ⟨rfl, ?_⟩
    intro hmem
    refine instsFor_agree (hag e.name hmem) ?_
    intro d hd
    exact forall2_rel_alookup _ _ h d (hcl e (List.mem_cons_self e rest) hmem d hd)

theorem tasksOf_needed_eq {reg : List Entity} {a1 a2 : List (String × List Val)}
    {E : String} (hwf : wfReg reg = true)
    (hag : ∀ n ∈ neededOf reg E, alookup a1 n = alookup a2 n) :
    tasksOf { reg := reg, asn := a1 } E = tasksOf { reg := reg, asn := a2 } E := by
  have hf2 := buildTableAux_needed hag reg [] [] (neededOf_closed reg E hwf)
    List.Forall₂.nil
  unfold tasksOf
  exact forall2_rel_flatMap _ _ hf2

theorem instsOf_needed_eq {reg : List Entity} {a1 a2 : List (String × List Val)}
    {E : String} (hwf : wfReg reg = true)
    (hag : ∀ n ∈ neededOf reg E, alookup a1 n = alookup a2 n) :
    instsOf { reg := reg, asn := a1 } E = instsOf { reg := reg, asn := a2 } E := by
  have hf2 := buildTableAux_needed hag reg [] [] (neededOf_closed reg E hwf)
    List.Forall₂.nil
  show (alookup (buildTableAux a1 reg []) E).getD []
      = (alookup (buildTableAux a2 reg []) E).getD []
  rw [forall2_rel_alookup _ _ hf2 E (mem_neededOf_self reg E)]

theorem instKeys_needed_eq {reg : List Entity} {a1 a2 : List (String × List Val)}
    {E : String} (hwf : wfReg reg = true)
    (hag : ∀ n ∈ neededOf reg E, alookup a1 n = alookup a2 n) :
    instKeys { reg := reg, asn := a1 } E = instKeys { reg := reg, asn := a2 } E := by
  unfold instKeys
  rw [instsOf_needed_eq hwf hag]

theorem multOf_needed_eq {reg : List Entity} {a1 a2 : List (String × List Val)}
    {E : String} (hwf : wfReg reg = true)
    (hag : ∀ n ∈ neededOf reg E, alookup a1 n = alookup a2 n) :
    multOf { reg := reg, asn := a1 } E = multOf { reg := reg, asn := a2 } E := by
  unfold multOf
  rw [instsOf_needed_eq hwf hag]

/-- Evaluation of a target depends only on the assignments of the
entities in its dependency closure: Flows agreeing there are
observationally identical at that target. -/
theorem getRun_needed_congr {reg : List Entity} {a1 a2 : List (String × List Val)}
    {E : String} (hwf : wfReg reg = true)
    (hag : ∀ n ∈ neededOf reg E, alookup a1 n = alookup a2 n)
    (c : Cache) (cont : Option Container) :
    Flow.getRun { reg := reg, asn := a1 } c E cont
      = Flow.getRun { reg := reg, asn := a2 } c E cont := by
  unfold Flow.getRun
  simp only [tasksOf_needed_eq hwf hag, instKeys_needed_eq hwf hag,
    multOf_needed_eq hwf hag]

/-! ### The claims -/

/-- C3: Multiplicity arithmetic: for every ordinary (non-gather) entity E
with dependencies D1..Dn, mult(E) equals the product of mult(Di) over all
dependencies (full cartesian fan-out); in particular, with one dependency
fixed to 3 values and an independent dependency fixed to 2 values, an
entity depending on both has multiplicity 6 (see the witness). -/
theorem multiplicity_product (f : Flow) (E : String) (e : Entity)
    (hwf : wfReg f.reg = true) (hreg : lookupReg f.reg E = some e)
    (hord : e.role = .ordinary) (hnfix : alookup f.asn E = none) :
    multOf f E = (e.deps.map (multOf f)).prod := by
  obtain ⟨tbl0, hEntry, hdeps⟩ := table_entry f.asn hwf hreg
  have hname : e.name = E := lookupReg_name hreg
  unfold multOf instsOf
  rw [hEntry]
  simp only [Option.getD_some]
  unfold instsFor
  rw [hname, hnfix, hord]
  rw [List.length_map, length_cartProd, List.map_map]
  congr 1
  refine List.map_congr_left ?_
  intro d hd
  have hda := hdeps d (List.mem_append_left _ hd)
  simp only [Function.comp]
  rw [hda.2]

/-- Witness for C3 at Scenario C: m depends on a (3 values) and d
(2 values); the product formula applies and gives 6. -/
theorem multiplicity_product_witness :
    wfReg flowMG.reg = true ∧
    multOf flowMG "m" = (entM.deps.map (multOf flowMG)).prod ∧
    multOf flowMG "m" = 6 :=
  ⟨by decide,
   multiplicity_product flowMG "m" entM (by decide) rfl rfl (by decide),
   by decide⟩

/-- C9: Implicit: setting replaces rather than extends an existing
assignment: for a Flow with an existing assignment at N, setting N to v
yields a Flow in which N's assignment is exactly the single value v (the
previous values are fully discarded), N's multiplicity becomes 1, the
map differs only at N, and evaluation of the result is determined by the
new assignment map alone (so downstream entities derive solely from v). -/
theorem setting_replaces (f : Flow) (n : String) (v : Val)
    (oldvs : List Val) (e : Entity) (f' : Flow)
    (hwf : wfReg f.reg = true) (hreg : lookupReg f.reg n = some e)
    (hold : alookup f.asn n = some oldvs)
    (hset : f.setting n [v] = .ok f') :
    alookup f'.asn n = some [v] ∧
    (∀ m, m ≠ n → alookup f'.asn m = alookup f.asn m) ∧
    multOf f' n = 1 ∧
    (∀ (g g' : Flow), g.reg = f.reg →
      (∀ m, m ≠ n → alookup g.asn m = alookup f.asn m) →
      g.setting n [v] = .ok g' →
      ∀ (c : Cache) (E2 : String) (cont : Option Container),
        Flow.getRun g' c E2 cont = Flow.getRun f' c E2 cont) := by
  unfold Flow.setting at hset
  rw [if_pos (by rw [hreg]; rfl)] at hset
  have hf' : f' = { reg := f.reg, asn := ainsert f.asn n [v] } :=
    (Except.ok.inj hset).symm
  subst hf'
  refine ⟨by simp [alookup_ainsert], ?_, ?_, ?_⟩
  · intro m hm
    simp only [alookup_ainsert]
    rw [if_neg (fun h => hm h.symm)]
  · exact @multOf_fixed { reg := f.reg, asn := ainsert f.asn n [v] } n e [v]
      hwf hreg (by simp [alookup_ainsert])
  · intro g g' hgreg hgasn hgset c E2 cont
    unfold Flow.setting at hgset
    rw [if_pos (by rw [hgreg, hreg]; rfl)] at hgset
    have hg' : g' = { reg := g.reg, asn := ainsert g.asn n [v] } :=
      (Except.ok.inj hgset).symm
    subst hg'
    have hmap : ∀ m, alookup (ainsert g.asn n [v]) m = alookup (ainsert f.asn n [v]) m := by
      intro m
      by_cases hm : m = n
      · subst hm
        simp [alookup_ainsert]
      · simp only [alookup_ainsert]
        rw [if_neg (fun h => hm h.symm), if_neg (fun h => hm h.symm)]
        exact hgasn m hm
    rw [hgreg]
    exact getRun_congr hmap c E2 cont

/-- Witness for C9: overriding a's existing assignment [1, 2, 3] with the
single value 9 leaves exactly [9] and multiplicity 1. -/
theorem setting_replaces_witness :
    ∃ f' : Flow, flowAC.setting "a" [Val.nat 9] = .ok f' ∧
      alookup f'.asn "a" = some [Val.nat 9] ∧ multOf f' "a" = 1 := by
  refine ⟨{ reg := flowAC.reg, asn := ainsert flowAC.asn "a" [Val.nat 9] }, rfl, ?_⟩
  have h := setting_replaces flowAC "a" (Val.nat 9)
    [Val.nat 1, Val.nat 2, Val.nat 3] (entSrc "a")
    { reg := flowAC.reg, asn := ainsert flowAC.asn "a" [Val.nat 9] }
    (by decide) rfl (by decide) rfl
  exact ⟨h.1, h.2.2.1⟩

/-- C6: Frame property of setting: for every Flow F, setting(N, V)
returns a new Flow whose assignment map differs from F's only at N (and
shares F's registry), fails with UnknownEntityError when N is absent from
the registry, and never mutates F: evaluation is determined entirely by a
Flow's registry and assignment map, so the original Flow's results are
unchanged by the call. -/
theorem setting_frame (f : Flow) (n : String) (vs : List Val) :
    ((lookupReg f.reg n).isSome →
      ∃ f', f.setting n vs = .ok f' ∧ f'.reg = f.reg ∧
        alookup f'.asn n = some vs ∧
        ∀ m, m ≠ n → alookup f'.asn m = alookup f.asn m) ∧
    ((lookupReg f.reg n).isSome = false →
      f.setting n vs = .error (.UnknownEntityError n)) ∧
    (∀ (g : Flow), g.reg = f.reg →
      (∀ m, alookup g.asn m = alookup f.asn m) →
      ∀ (c : Cache) (E : String) (cont : Option Container),
        Flow.getRun g c E cont = Flow.getRun f c E cont) := by
  refine ⟨?_, ?_, ?_⟩
  · intro hreg
    refine ⟨{ reg := f.reg, asn := ainsert f.asn n vs }, ?_, rfl, ?_, ?_⟩
    · unfold Flow.setting
      rw [if_pos hreg]
    · simp [alookup_ainsert]
    · intro m hm
      simp only [alookup_ainsert]
      rw [if_neg (fun h => hm h.symm)]
  · intro hreg
    unfold Flow.setting
    rw [if_neg (by simp [hreg])]
  · intro g hgreg hgasn c E cont
    obtain ⟨greg, gasn⟩ := g
    obtain ⟨freg, fasn⟩ := f
    simp only at hgreg hgasn
    subst hgreg
    exact getRun_congr hgasn c E cont

/-- Witness for C6: setting a registered entity on the Scenario A flow
yields a new Flow differing only there; setting an unknown name fails. -/
theorem setting_frame_witness :
    (lookupReg flowAB.reg "a").isSome = true ∧
    (∃ f', flowAB.setting "a" [Val.nat 5] = .ok f' ∧ f'.reg = flowAB.reg ∧
      alookup f'.asn "a" = some [Val.nat 5] ∧
      ∀ m, m ≠ "a" → alookup f'.asn m = alookup flowAB.asn m) ∧
    flowAB.setting "nope" [Val.nat 5] = .error (.UnknownEntityError "nope") := by
  refine ⟨by decide, (setting_frame flowAB "a" [Val.nat 5]).1 (by decide), ?_⟩
  exact (setting_frame flowAB "nope" [Val.nat 5]).2.1 (by decide)

/-- C4: Gather contraction: for every gather-target entity E whose
GatherSpec contracts dimensions d1..dm, mult(E) equals the product of
mult(Di) over dependencies not in the contracted set, and each surviving
Instance's sole argument is the single ordered container collecting the
payload Instances whose coordinates agree with it, in their resolved
order (the witness checks the 3-against-2 scenario: mult 2, containers
of 3). -/
theorem gather_contraction (f : Flow) (E : String) (e : Entity) (gs : GatherSpec)
    (hwf : wfReg f.reg = true) (hreg : lookupReg f.reg E = some e)
    (hrole : e.role = .gatherTarget gs) (hnfix : alookup f.asn E = none) :
    multOf f E = ((e.deps.filter (fun d => !(gs.over.contains d))).map (multOf f)).prod ∧
    ∀ t ∈ instsOf f E,
      t.args = .gathered
        (((instsOf f gs.also).filter (fun p => dimsAgree p.dims t.dims)).map
          (fun p => p.key)) := by
  obtain ⟨tbl0, hEntry, hdeps⟩ := table_entry f.asn hwf hreg
  have hname : e.name = E := lookupReg_name hreg
  have halsomem : gs.also ∈ e.deps ++ gatherExtra e := by
    refine List.mem_append_right _ ?_
    simp [gatherExtra, hrole]
  have halso := (hdeps gs.also halsomem).2
  constructor
  · unfold multOf instsOf
    rw [hEntry]
    simp only [Option.getD_some]
    simp only [instsFor, hname, hnfix, hrole]
    rw [List.length_map, length_cartProd, List.map_map]
    congr 1
    refine List.map_congr_left ?_
    intro d hd
    have hdmem : d ∈ e.deps := (List.mem_filter.mp hd).1
    have hda := hdeps d (List.mem_append_left _ hdmem)
    simp only [Function.comp]
    rw [hda.2]
  · intro t ht
    unfold instsOf at ht
    rw [hEntry] at ht
    simp only [Option.getD_some] at ht
    simp only [instsFor, hname, hnfix, hrole] at ht
    obtain ⟨combo, hcombo, hteq⟩ := List.mem_map.mp ht
    rw [← hteq]
    simp only [instsOf, halso]

/-- Witness for C4 at Scenario D: g contracts the 3-valued dimension a
against the 2-valued orthogonal dimension d and collects m; mult(g) = 2
and each collected container holds exactly 3 m-values. -/
theorem gather_contraction_witness :
    wfReg flowMG.reg = true ∧
    multOf flowMG "g"
      = ((entG.deps.filter (fun d => !(["a"].contains d))).map (multOf flowMG)).prod ∧
    multOf flowMG "g" = 2 ∧
    (instsOf flowMG "g").map (fun t => t.args.keys.length) = [3, 3] ∧
    (Flow.getRun flowMG emptyCache "g" (some .list)).1
      = .ok (.list
          [.list [.list [.nat 107, .nat 207, .nat 307]],
           .list [.list [.nat 108, .nat 208, .nat 308]]]) :=
  ⟨by decide,
   (gather_contraction flowMG "g" entG { over := ["a"], also := "m" }
     (by decide) rfl rfl (by decide)).1,
   by decide, by decide, by decide⟩

/-- C5: Single-value accessor error iff multiplicity > 1: get(E) with no
container fails with MultipleValuesError naming E and its multiplicity
exactly when mult(E) > 1; with a container selector the ordered Instance
values are assembled into the container; when mult(E) = 1 the single
value is returned. -/
theorem single_value_accessor (f : Flow) (c : Cache) (E : String)
    (hreg : (lookupReg f.reg E).isSome)
    (hsucc : (execInsts f.reg { cache := c, env := [], calls := [] } (tasksOf f E)).2 = none) :
    ((Flow.getRun f c E none).1 = .error (.MultipleValuesError E (multOf f E))
      ↔ 1 < multOf f E) ∧
    (∃ vs, (Flow.getRun f c E (some .list)).1 = .ok (.list vs) ∧
      vs.length = multOf f E) ∧
    (multOf f E = 1 → ∃ v, (Flow.getRun f c E none).1 = .ok v) := by
  refine ⟨⟨?_, ?_⟩, ?_, ?_⟩
  · intro herr
    rcases Nat.lt_trichotomy (multOf f E) 1 with h | h | h
    · have h0 : multOf f E = 0 := by omega
      rw [getRun_zero hreg hsucc h0] at herr
      simp at herr
    · obtain ⟨t, v, _, _, hrun⟩ := getRun_single_ok hreg hsucc h
      rw [hrun] at herr
      simp at herr
    · exact h
  · intro h
    rw [getRun_multi hreg hsucc h]
  · obtain ⟨vs, hvs, hrun⟩ := getRun_list_ok hreg hsucc
    refine ⟨vs, by rw [hrun], ?_⟩
    rw [mapLookup_length hvs]
    unfold instKeys
    rw [List.length_map]
    rfl
  · intro h1
    obtain ⟨t, v, _, _, hrun⟩ := getRun_single_ok hreg hsucc h1
    exact ⟨v, by rw [hrun]⟩

/-- Witness for C5 at Scenario E: m has multiplicity 6, so the
single-value accessor fails with MultipleValuesError naming m and 6,
while the container accessor succeeds. -/
theorem single_value_accessor_witness :
    (lookupReg flowMG.reg "m").isSome = true ∧
    (execInsts flowMG.reg { cache := emptyCache, env := [], calls := [] }
      (tasksOf flowMG "m")).2 = none ∧
    ((Flow.getRun flowMG emptyCache "m" none).1
        = .error (.MultipleValuesError "m" (multOf flowMG "m"))
      ↔ 1 < multOf flowMG "m") ∧
    multOf flowMG "m" = 6 ∧
    (Flow.getRun flowMG emptyCache "m" none).1
      = .error (.MultipleValuesError "m" 6) :=
  ⟨by decide, by decide,
   (single_value_accessor flowMG emptyCache "m" (by decide) (by decide)).1,
   by decide, by decide⟩

/-- C7: Deterministic container ordering: an entity requested with the
ordered container yields its Instance values in the declared Assignment
order of fixed entities composed with the registration order of
dependency names (the resolved table order); in particular a fixed
entity's values come back in Assignment order, and with a fixed to
[1,2,3] and c = a * 10, get(c, list) returns [10, 20, 30] in that
order. -/
theorem ordered_container (f : Flow) (c : Cache) (E : String) (e : Entity)
    (vs : List Val)
    (hwf : wfReg f.reg = true) (hreg : lookupReg f.reg E = some e)
    (ha : alookup f.asn E = some vs)
    (hsucc : (execInsts f.reg { cache := c, env := [], calls := [] } (tasksOf f E)).2 = none) :
    (Flow.getRun f c E (some .list)).1 = .ok (.list vs) ∧
    (Flow.getRun flowAC emptyCache "c" (some .list)).1
      = .ok (.list [Val.nat 10, Val.nat 20, Val.nat 30]) := by
  constructor
  · have hregS : (lookupReg f.reg E).isSome := by rw [hreg]; rfl
    obtain ⟨vs1, hvs1, hrun⟩ := getRun_list_ok hregS hsucc
    obtain ⟨tbl0, hEntry, _⟩ := table_entry f.asn hwf hreg
    have hname : e.name = E := lookupReg_name hreg
    have hkeys : instKeys f E = vs.map (fun v => CaseKey.fixedKey E v) := by
      unfold instKeys instsOf
      rw [hEntry]
      simp only [Option.getD_some]
      rw [instsFor_fixed_keys (by rw [hname]; exact ha), hname]
    have hfix : ∀ (n : String) (v w : Val),
        alookup (execInsts f.reg { cache := c, env := [], calls := [] }
          (tasksOf f E)).1.env (.fixedKey n v) = some w → w = v := by
      refine exec_env_fixedKey (tasksOf f E) _ (fun t ht => tasksOf_WF t ht) ?_
      intro n v w h
      simp [alookup] at h
    have hpres : ∀ v ∈ vs,
        (alookup (execInsts f.reg { cache := c, env := [], calls := [] }
          (tasksOf f E)).1.env (.fixedKey E v)).isSome := by
      intro v hv
      refine instKeys_present hsucc _ ?_
      rw [hkeys]
      exact List.mem_map_of_mem _ hv
    have hml := mapLookup_fixed_vals hfix vs hpres
    rw [hkeys, hml] at hvs1
    have hvv : vs1 = vs := (Option.some.inj hvs1).symm
    rw [hrun, hvv]
  · decide

/-- Witness for C7: the fixed entity a of Scenario B comes back in its
Assignment order [1, 2, 3]. -/
theorem ordered_container_witness :
    wfReg flowAC.reg = true ∧
    (Flow.getRun flowAC emptyCache "a" (some .list)).1
      = .ok (.list [Val.nat 1, Val.nat 2, Val.nat 3]) :=
  ⟨by decide,
   (ordered_container flowAC emptyCache "a" (entSrc "a")
     [Val.nat 1, Val.nat 2, Val.nat 3] (by decide) rfl (by decide) (by decide)).1⟩

/-- C2: Idempotence of get on one Flow: after a successful get, a second
get against the resulting Cache Store returns an equal value and does not
invoke the entity's producing function again; starting from the empty
cache with a multiplicity-1 derived entity, the producing function runs
exactly once across both calls. -/
theorem get_idempotent (f : Flow) (c : Cache) (E : String)
    (cont : Option Container) (v : Val)
    (hcw : CacheWF c)
    (hok : (Flow.getRun f c E cont).1 = .ok v) :
    (Flow.getRun f (Flow.getRun f c E cont).2.1 E cont).1 = .ok v ∧
    callsOf (Flow.getRun f (Flow.getRun f c E cont).2.1 E cont).2.2 E = 0 ∧
    (c = emptyCache → multOf f E = 1 → alookup f.asn E = none → wfReg f.reg = true →
      callsOf (Flow.getRun f c E cont).2.2 E +
        callsOf (Flow.getRun f (Flow.getRun f c E cont).2.1 E cont).2.2 E = 1) := by
  obtain ⟨hreg, _⟩ := getRun_ok_elim hok
  have hc2 : (Flow.getRun f c E cont).2.1
      = (execInsts f.reg { cache := c, env := [], calls := [] } (tasksOf f E)).1.cache :=
    (Prod.ext_iff.mp (getRun_state hreg)).1
  obtain ⟨hval, hzero, _⟩ :=
    warm_rerun_core f c E cont v (Flow.getRun f c E cont).2.1 hcw hok (Or.inl hc2)
  refine ⟨hval, hzero E, ?_⟩
  intro hc0 hmult hnfix hwf
  subst hc0
  rw [cold_calls_one f E cont v hok hmult hnfix hwf, hzero E]

/-- Witness for C2 at Scenario A: get(b) = 2, the second get returns 2
from the cache, and b's producing function runs exactly once across both
calls. -/
theorem get_idempotent_witness :
    CacheWF emptyCache ∧
    (Flow.getRun flowAB emptyCache "b" none).1 = .ok (.nat 2) ∧
    (Flow.getRun flowAB (Flow.getRun flowAB emptyCache "b" none).2.1 "b" none).1
      = .ok (.nat 2) ∧
    callsOf (Flow.getRun flowAB emptyCache "b" none).2.2 "b" +
      callsOf (Flow.getRun flowAB (Flow.getRun flowAB emptyCache "b" none).2.1
        "b" none).2.2 "b" = 1 := by
  have h := get_idempotent flowAB emptyCache "b" none (.nat 2) CacheWF_empty (by decide)
  exact ⟨CacheWF_empty, by decide, h.1, h.2.2 rfl (by decide) (by decide) (by decide)⟩

/-- C10: Implicit: evaluation is safe starting from an absent or empty
persistent cache: a get issued against the empty cache treats every
lookup as a miss rather than an error and recomputes (when the entity is
derived with multiplicity 1, its function is invoked exactly once), and
the values are the same as under a warm cache: re-running against the
persistent tier produced by the cold run returns the identical value with
zero invocations and no further persistent writes. -/
theorem empty_cache_safe (f : Flow) (E : String) (cont : Option Container) (v : Val)
    (hok : (Flow.getRun f emptyCache E cont).1 = .ok v) :
    (Flow.getRun f
      { mem := [], disk := (Flow.getRun f emptyCache E cont).2.1.disk } E cont).1
      = .ok v ∧
    (∀ n, callsOf (Flow.getRun f
      { mem := [], disk := (Flow.getRun f emptyCache E cont).2.1.disk } E cont).2.2 n = 0) ∧
    (Flow.getRun f
      { mem := [], disk := (Flow.getRun f emptyCache E cont).2.1.disk } E cont).2.1.disk
      = (Flow.getRun f emptyCache E cont).2.1.disk ∧
    (multOf f E = 1 → alookup f.asn E = none → wfReg f.reg = true →
      callsOf (Flow.getRun f emptyCache E cont).2.2 E = 1) := by
  obtain ⟨hreg, _⟩ := getRun_ok_elim hok
  have hc2 : ({ mem := [], disk := (Flow.getRun f emptyCache E cont).2.1.disk } : Cache)
      = { mem := [],
          disk := (execInsts f.reg { cache := emptyCache, env := [], calls := [] }
            (tasksOf f E)).1.cache.disk } := by
    rw [(Prod.ext_iff.mp (getRun_state hreg)).1]
  obtain ⟨hval, hzero, hdisk⟩ :=
    warm_rerun_core f emptyCache E cont v _ CacheWF_empty hok (Or.inr hc2)
  exact ⟨hval, hzero, hdisk, fun hmult hnfix hwf =>
    cold_calls_one f E cont v hok hmult hnfix hwf⟩

/-- Witness for C10 at Scenario A: a fresh-cache get of b succeeds with
2, the warm re-run reproduces it with zero invocations, and the cold run
invoked b's function exactly once. -/
theorem empty_cache_safe_witness :
    (Flow.getRun flowAB emptyCache "b" none).1 = .ok (.nat 2) ∧
    (Flow.getRun flowAB
      { mem := [], disk := (Flow.getRun flowAB emptyCache "b" none).2.1.disk }
      "b" none).1 = .ok (.nat 2) ∧
    (∀ n, callsOf (Flow.getRun flowAB
      { mem := [], disk := (Flow.getRun flowAB emptyCache "b" none).2.1.disk }
      "b" none).2.2 n = 0) ∧
    callsOf (Flow.getRun flowAB emptyCache "b" none).2.2 "b" = 1 := by
  have h := empty_cache_safe flowAB "b" none (.nat 2) (by decide)
  exact ⟨by decide, h.1, h.2.1, h.2.2.2 (by decide) (by decide) (by decide)⟩

/-- C1: Case-key determinism and cross-Flow cache reuse: for two Flows
over one registry (identical producing-function version tokens) whose
assignments agree on E's dependency closure — so E's resolved dependency
Instance values are value-identical, while entities outside the closure
may be assigned arbitrarily differently — E resolves to identical case
keys in both Flows; a persistent cache entry produced under the first
Flow is visible to the second (its first get returns the same value with
zero producing-function invocations), and for a multiplicity-1 derived
entity the producing function is invoked exactly once in total across
both Flows' first gets. -/
theorem crossflow_cache_reuse (reg : List Entity)
    (a1 a2 : List (String × List Val)) (E : String)
    (cont : Option Container) (v : Val)
    (hwf : wfReg reg = true)
    (hag : ∀ n ∈ neededOf reg E, alookup a1 n = alookup a2 n)
    (hok : (Flow.getRun { reg := reg, asn := a1 } emptyCache E cont).1 = .ok v)
    (hmult : multOf { reg := reg, asn := a1 } E = 1)
    (hnfix : alookup a1 E = none) :
    instKeys { reg := reg, asn := a1 } E = instKeys { reg := reg, asn := a2 } E ∧
    (Flow.getRun { reg := reg, asn := a2 }
      { mem := [],
        disk := (Flow.getRun { reg := reg, asn := a1 } emptyCache E cont).2.1.disk }
      E cont).1 = .ok v ∧
    callsOf (Flow.getRun { reg := reg, asn := a2 }
      { mem := [],
        disk := (Flow.getRun { reg := reg, asn := a1 } emptyCache E cont).2.1.disk }
      E cont).2.2 E = 0 ∧
    callsOf (Flow.getRun { reg := reg, asn := a1 } emptyCache E cont).2.2 E +
      callsOf (Flow.getRun { reg := reg, asn := a2 }
        { mem := [],
          disk := (Flow.getRun { reg := reg, asn := a1 } emptyCache E cont).2.1.disk }
        E cont).2.2 E = 1 := by
  obtain ⟨hreg, _⟩ := getRun_ok_elim hok
  have hgc := getRun_needed_congr hwf hag
    { mem := [],
      disk := (Flow.getRun { reg := reg, asn := a1 } emptyCache E cont).2.1.disk }
    cont
  have hc2 : Cache.mk [] (Flow.getRun (Flow.mk reg a1) emptyCache E cont).2.1.disk
      = Cache.mk []
          (execInsts reg { cache := emptyCache, env := [], calls := [] }
            (tasksOf (Flow.mk reg a1) E)).1.cache.disk := by
    rw [(Prod.ext_iff.mp (getRun_state hreg)).1]
  obtain ⟨hval, hzero, _⟩ :=
    warm_rerun_core { reg := reg, asn := a1 } emptyCache E cont v _ CacheWF_empty hok
      (Or.inr hc2)
  refine ⟨instKeys_needed_eq hwf hag, ?_, ?_, ?_⟩
  · rw [← hgc]
    exact hval
  · rw [← hgc]
    exact hzero E
  · rw [← hgc]
    rw [cold_calls_one { reg := reg, asn := a1 } E cont v hok hmult hnfix hwf, hzero E]

/-- Witness for C1: two independently constructed Flows agreeing on b's
dependency closure (the single dependency a) while assigning genuinely
different values to the unrelated entity x; they share b's case key and
the persistent cache, and b's producing function runs once in total. -/
theorem crossflow_cache_reuse_witness :
    (∀ n ∈ neededOf regABX "b", alookup flowX1.asn n = alookup flowX2.asn n) ∧
    alookup flowX1.asn "x" ≠ alookup flowX2.asn "x" ∧
    (Flow.getRun flowX1 emptyCache "b" none).1 = .ok (.nat 2) ∧
    instKeys flowX1 "b" = instKeys flowX2 "b" ∧
    (Flow.getRun flowX2
      { mem := [], disk := (Flow.getRun flowX1 emptyCache "b" none).2.1.disk }
      "b" none).1 = .ok (.nat 2) ∧
    callsOf (Flow.getRun flowX1 emptyCache "b" none).2.2 "b" +
      callsOf (Flow.getRun flowX2
        { mem := [], disk := (Flow.getRun flowX1 emptyCache "b" none).2.1.disk }
        "b" none).2.2 "b" = 1 := by
  have h := crossflow_cache_reuse regABX flowX1.asn flowX2.asn "b" none (.nat 2)
    (by decide) (by decide) (by decide) (by decide) (by decide)
  exact ⟨by decide, by decide, by decide, h.1, h.2.1, h.2.2.2⟩

/-- C8: Failed computations are never cached and always surface: when an
Instance's producing function raises (it missed both cache tiers and its
function returns an error), the whole get aborts at that point (no
Instance after it in dependency order is resolved), the error naming the
entity is reported to the caller, and no entry for the Instance's case
key is present in either cache tier of the returned store. -/
theorem failure_never_cached (f : Flow) (c : Cache) (E : String)
    (cont : Option Container)
    (pre : List Inst) (t : Inst) (post : List Inst)
    (args : List Val) (fn : List Val → Except String Val) (msg : String)
    (hreg : (lookupReg f.reg E).isSome)
    (hts : tasksOf f E = pre ++ t :: post)
    (hpre : (execInsts f.reg { cache := c, env := [], calls := [] } pre).2 = none)
    (hmiss : lookupCache
      (execInsts f.reg { cache := c, env := [], calls := [] } pre).1.cache t.key = none)
    (hargs : instArgs
      (execInsts f.reg { cache := c, env := [], calls := [] } pre).1 t = some args)
    (hfn : fnOf f.reg t.entity = some fn)
    (hfail : fn args = .error msg) :
    Flow.getRun f c E cont =
      (.error (.computeFailure t.entity msg),
       (execInsts f.reg { cache := c, env := [], calls := [] } pre).1.cache,
       (execInsts f.reg { cache := c, env := [], calls := [] } pre).1.calls) ∧
    alookup (execInsts f.reg { cache := c, env := [], calls := [] }
      pre).1.cache.mem t.key = none ∧
    alookup (execInsts f.reg { cache := c, env := [], calls := [] }
      pre).1.cache.disk t.key = none := by
  cases hrunpre : execInsts f.reg { cache := c, env := [], calls := [] } pre with
  | mk s1 r1 =>
    rw [hrunpre] at hpre hmiss hargs
    simp only at hpre hmiss hargs
    cases r1 with
    | some e => simp at hpre
    | none =>
      have hmem : alookup s1.cache.mem t.key = none := by
        unfold lookupCache at hmiss
        cases hm : alookup s1.cache.mem t.key with
        | none => rfl
        | some w => rw [hm] at hmiss; cases hmiss
      have hdisk : alookup s1.cache.disk t.key = none := by
        unfold lookupCache at hmiss
        rw [hmem] at hmiss
        exact hmiss
      have hstep : execInst f.reg s1 t = (s1, some (.computeFailure t.entity msg)) := by
        cases hargs2 : t.args with
        | fixedArg v0 => simp [instArgs, hargs2] at hargs
        | positional ks =>
          simp [execInst, hargs2, execDerived, hmem, hdisk, execMiss, hargs, hfn, hfail]
        | gathered ks =>
          simp [execInst, hargs2, execDerived, hmem, hdisk, execMiss, hargs, hfn, hfail]
      have htotal : execInsts f.reg { cache := c, env := [], calls := [] }
          (pre ++ t :: post) = (s1, some (.computeFailure t.entity msg)) := by
        rw [execInsts_append_ok _ hrunpre, execInsts_cons_err hstep]
      refine ⟨?_, hmem, hdisk⟩
      unfold Flow.getRun
      cases hr : lookupReg f.reg E with
      | none => rw [hr] at hreg; cases hreg
      | some e =>
        rw [hts, htotal]

/-- Witness for C8: the failing entity misses the empty cache, its
function raises, the get reports the failure naming the entity, and its
case key is cached in neither tier. -/
theorem failure_never_cached_witness :
    tasksOf flowBad "bad" = [instSrcA] ++ instBad :: [] ∧
    Flow.getRun flowBad emptyCache "bad" none =
      (.error (.computeFailure "bad" "boom"),
       (execInsts flowBad.reg { cache := emptyCache, env := [], calls := [] }
         [instSrcA]).1.cache,
       (execInsts flowBad.reg { cache := emptyCache, env := [], calls := [] }
         [instSrcA]).1.calls) ∧
    alookup (execInsts flowBad.reg { cache := emptyCache, env := [], calls := [] }
      [instSrcA]).1.cache.mem instBad.key = none ∧
    alookup (execInsts flowBad.reg { cache := emptyCache, env := [], calls := [] }
      [instSrcA]).1.cache.disk instBad.key = none := by
  have h := failure_never_cached flowBad emptyCache "bad" none
    [instSrcA] instBad [] [Val.nat 1] (fun _ => Except.error "boom") "boom"
    (by decide) (by decide) (by decide) (by decide) (by decide) rfl rfl
  exact ⟨by decide, h.1, h.2.1, h.2.2⟩

end Bionic
